import Mathlib

/-!
# Shallow embedding of `curve-amm-math` (StableSwap / CryptoSwap quote engines)

This file embeds the TypeScript sources `src/stableswap.ts` (including the
extended module with `getYD`, `getDx`, `calcTokenAmount`, `calcWithdrawOneCoin`)
and `src/cryptoswap.ts` into Lean.

Modelling conventions:
* JavaScript `bigint` values are `Int`; `a / b` on bigints truncates toward
  zero, which is `Int.tdiv`.  A bigint division by zero throws a `RangeError`
  at runtime; we model every source-level division with `jdiv`, which returns
  `Except.error JsErr.divideByZero` when the divisor is zero.
* Reading `a[k]` on an array with `k` out of range yields `undefined` in JS;
  every such read in the embedded functions is immediately consumed by bigint
  arithmetic, which throws a `TypeError`.  `readA`/`pget` model this as
  `Except.error JsErr.typeError`.  The guard `dy >= xp[j]` in the `getDx`
  functions compares against a possibly-`undefined` value without arithmetic
  (the comparison is simply `false` for `undefined`); `readU`/`pgetU` with
  `geU` model that case.
* Mutable local arrays are modelled by rebinding immutable lists; each
  function that receives a caller-owned balance array returns, next to its
  result, the contents of that array when the call finishes (`*_st` suffix:
  state-threaded).  The sources only ever write to freshly created copies
  (`[...xp]`, array literals, `map` results), so the returned array equals
  the argument; the embedding keeps the store explicit so that this is a
  theorem rather than a convention.
* `for` loops with `break`/`continue` become structural recursion on a fuel
  argument initialised with the source's iteration cap (255).
-/

namespace CurveAmm

/-- Runtime faults of the embedded JavaScript arithmetic: `divideByZero` is
the `RangeError` thrown by bigint division by zero, `typeError` the
`TypeError` thrown when an out-of-range (`undefined`) array read is used in
bigint arithmetic.  The sources define no typed error of their own. -/
inductive JsErr : Type where
  | divideByZero : JsErr
  | typeError : JsErr
deriving DecidableEq

/-- JS bigint division `a / b`: truncation toward zero, `RangeError` on a
zero divisor. -/
def jdiv (a b : Int) : Except JsErr Int :=
  if b = 0 then .error .divideByZero else .ok (a.tdiv b)

/-- Array read `xs[k]` whose value is immediately used in bigint arithmetic:
out-of-range (`undefined`) faults with a `TypeError`. -/
def readA (xs : List Int) (k : Int) : Except JsErr Int :=
  if h : 0 ≤ k ∧ k.toNat < xs.length then .ok (xs.get ⟨k.toNat, h.2⟩)
  else .error .typeError

/-- Array read `xs[k]` used only in a comparison: `none` models `undefined`. -/
def readU (xs : List Int) (k : Int) : Option Int :=
  if h : 0 ≤ k ∧ k.toNat < xs.length then some (xs.get ⟨k.toNat, h.2⟩)
  else none

/-- JS comparison `a >= b` where `b` may be `undefined` (any comparison with
`undefined` is `false`). -/
def geU (a : Int) (b : Option Int) : Bool :=
  match b with
  | none => false
  | some v => decide (v ≤ a)

/-- Array write `xs[k] = v`.  All writes in the sources hit indices of
freshly created arrays; an out-of-range write would not affect any later
read of the fixed indices the code uses, so it is modelled as a no-op. -/
def writeA (xs : List Int) (k : Int) (v : Int) : List Int :=
  if 0 ≤ k ∧ k.toNat < xs.length then xs.set k.toNat v else xs

namespace stableswap

def A_PRECISION : Int := 100

def FEE_DENOMINATOR : Int := 10 ^ 10

def MAX_ITERATIONS : Nat := 255

/-- Newton loop of `getD` (`for (let i = 0; i < MAX_ITERATIONS; i++) …`).
`N`, `nPow = N ** N` and `S` are the loop-invariant values computed before
the loop; the `Int` argument is the current iterate `D`. -/
def getDLoop (xp : List Int) (Ann N nPow S : Int) : Nat → Int → Except JsErr Int
  | 0, D => .ok D
  | fuel + 1, D => do
    let dp ← xp.foldlM (fun dp x => jdiv (dp * D) x) D
    let D_P ← jdiv dp nPow
    let t1 ← jdiv (Ann * S) A_PRECISION
    let numerator := (t1 + D_P * N) * D
    let t2 ← jdiv ((Ann - A_PRECISION) * D) A_PRECISION
    let denominator := t2 + (N + 1) * D_P
    let Dn ← jdiv numerator denominator
    if (if D < Dn then Dn - D ≤ 1 else D - Dn ≤ 1) then .ok Dn
    else getDLoop xp Ann N nPow S fuel Dn

/-- `getD(xp, Ann)`: the StableSwap invariant by Newton's method.  Returns
the caller's array alongside the result (state-threaded). -/
def getD_st (xp : List Int) (Ann : Int) : Except JsErr (Int × List Int) := do
  let N : Int := (xp.length : Int)
  let nPow : Int := N ^ xp.length
  let S : Int := xp.foldl (· + ·) 0
  if S = 0 then .ok (0, xp)
  else do
    let D ← getDLoop xp Ann N nPow S MAX_ITERATIONS S
    .ok (D, xp)

/-- The `for (let k = 0; …)` loop of `getY` accumulating `(S, c)`: at index
`k = i` the candidate `x` is used, index `k = j` is skipped, every other
index contributes `xp[k]`. -/
def getYSC (i j x D N : Int) (xp : List Int) : Except JsErr (Int × Int) :=
  xp.enum.foldlM
    (fun sc kv =>
      if (kv.1 : Int) = i then do
        let c ← jdiv (sc.2 * D) (x * N)
        .ok (sc.1 + x, c)
      else if (kv.1 : Int) ≠ j then do
        let c ← jdiv (sc.2 * D) (kv.2 * N)
        .ok (sc.1 + kv.2, c)
      else .ok sc)
    ((0 : Int), D)

/-- Newton loop shared by `getY` and `getYD`:
`y = (y*y + c) / (2*y + b - D)` until `|Δy| ≤ 1` or the cap. -/
def getYLoop (b c D : Int) : Nat → Int → Except JsErr Int
  | 0, y => .ok y
  | fuel + 1, y => do
    let yn ← jdiv (y * y + c) (2 * y + b - D)
    if (if y < yn then yn - y ≤ 1 else y - yn ≤ 1) then .ok yn
    else getYLoop b c D fuel yn

/-- `getY(i, j, x, xp, Ann, D)`: solve for the new balance at `j` holding
`D` fixed. -/
def getY_st (i j x : Int) (xp : List Int) (Ann D : Int) :
    Except JsErr (Int × List Int) := do
  let N : Int := (xp.length : Int)
  let sc ← getYSC i j x D N xp
  let c ← jdiv (sc.2 * D * A_PRECISION) (Ann * N)
  let t ← jdiv (D * A_PRECISION) Ann
  let b := sc.1 + t
  let y ← getYLoop b c D MAX_ITERATIONS D
  .ok (y, xp)

/-- `getYD(i, xp, Ann, D)`: solve for the balance at `i` given a target `D`
(liquidity path).  Accumulates over every index `k ≠ i`. -/
def getYD_st (i : Int) (xp : List Int) (Ann D : Int) :
    Except JsErr (Int × List Int) := do
  let N : Int := (xp.length : Int)
  let sc ← xp.enum.foldlM
    (fun sc kv =>
      if (kv.1 : Int) ≠ i then do
        let c ← jdiv (sc.2 * D) (kv.2 * N)
        .ok (sc.1 + kv.2, c)
      else .ok sc)
    ((0 : Int), D)
  let c ← jdiv (sc.2 * D * A_PRECISION) (Ann * N)
  let t ← jdiv (D * A_PRECISION) Ann
  let b := sc.1 + t
  let y ← getYLoop b c D MAX_ITERATIONS D
  .ok (y, xp)

/-- `dynamicFee(xpi, xpj, baseFee, feeMultiplier)`: balance-weighted dynamic
fee.  Returns the base fee whenever the multiplier is at most
`FEE_DENOMINATOR`; otherwise divides by `(xpi + xpj) ** 2`. -/
def dynamicFee (xpi xpj baseFee feeMultiplier : Int) : Except JsErr Int :=
  if feeMultiplier ≤ FEE_DENOMINATOR then .ok baseFee
  else do
    let xps2 := (xpi + xpj) ^ 2
    let q ← jdiv ((feeMultiplier - FEE_DENOMINATOR) * 4 * xpi * xpj) xps2
    jdiv (feeMultiplier * baseFee) (q + FEE_DENOMINATOR)

/-- `getDy(i, j, dx, xp, Ann, baseFee, feeMultiplier)`: forward quote.
Copies `xp`, applies `dx` at `i` on the copy, solves `D` then `y`, takes
`dy = xp[j] - y - 1` and subtracts the dynamic fee computed at the average
of pre- and post-trade balances.  No flooring of the final value. -/
def getDy_st (i j dx : Int) (xp : List Int) (Ann baseFee feeMultiplier : Int) :
    Except JsErr (Int × List Int) := do
  let xi ← readA xp i
  let newXp := writeA xp i (xi + dx)
  let dres ← getD_st xp Ann
  let D := dres.1
  let xp1 := dres.2
  let nxi ← readA newXp i
  let yres ← getY_st i j nxi xp1 Ann D
  let y := yres.1
  let xp2 := yres.2
  let xj ← readA xp2 j
  let dy := xj - y - 1
  let ai ← readA xp2 i
  let bi ← readA newXp i
  let fi ← jdiv (ai + bi) 2
  let fj ← jdiv (xj + y) 2
  let fee ← dynamicFee fi fj baseFee feeMultiplier
  let feeAmount ← jdiv (dy * fee) FEE_DENOMINATOR
  .ok (dy - feeAmount, xp2)

/-- `getDx(i, j, dy, xp, Ann, baseFee, feeMultiplier)`: reverse quote by
algebraic inversion.  Guards: `dy === 0n` returns 0; `dy >= xp[j]` returns
0 (a comparison, so an out-of-range `xp[j]` is `undefined` and the guard is
simply false).  Estimates the fee at pre-trade balances, grosses `dy` up,
and re-solves with the roles of `i` and `j` swapped. -/
def getDx_st (i j dy : Int) (xp : List Int) (Ann baseFee feeMultiplier : Int) :
    Except JsErr (Int × List Int) := do
  if dy = 0 then .ok (0, xp)
  else if geU dy (readU xp j) then .ok (0, xp)
  else do
    let dres ← getD_st xp Ann
    let D := dres.1
    let xp1 := dres.2
    let xpi ← readA xp1 i
    let xpj ← readA xp1 j
    let fee ← dynamicFee xpi xpj baseFee feeMultiplier
    let dyWithFee ← jdiv (dy * FEE_DENOMINATOR) (FEE_DENOMINATOR - fee)
    let newY := xpj - dyWithFee
    if newY ≤ 0 then .ok (0, xp1)
    else do
      let _newXp := writeA xp1 j newY
      let xres ← getY_st j i newY xp1 Ann D
      let x := xres.1
      let xp2 := xres.2
      let dx := x - xpi + 1
      .ok (if 0 < dx then dx else 0, xp2)

/-- Imbalance-fee loop of `calcTokenAmount`: for each index, the ideal
balance is `xp[i] * D1 / D0` and the fee-reduced balance is
`newXp[i] - tokenFee * |newXp[i] - ideal| / FEE_DENOMINATOR`. -/
def calcReduced (xp newXp : List Int) (D1 D0 tokenFee : Int) :
    Except JsErr (List Int) :=
  xp.enum.foldlM
    (fun acc kv => do
      let nb ← readA newXp (kv.1 : Int)
      let ideal ← jdiv (kv.2 * D1) D0
      let diff := if ideal < nb then nb - ideal else ideal - nb
      let red ← jdiv (tokenFee * diff) FEE_DENOMINATOR
      .ok (acc ++ [nb - red]))
    []

/-- `calcTokenAmount(amounts, isDeposit, xp, Ann, totalSupply, fee)`:
LP tokens minted (deposit) or burned (withdrawal) for the given amounts,
with the imbalance fee charged against the ideal-balance target. -/
def calcTokenAmount_st (amounts : List Int) (isDeposit : Bool)
    (xp : List Int) (Ann totalSupply fee : Int) :
    Except JsErr (Int × List Int) := do
  let N : Int := (xp.length : Int)
  let d0res ← getD_st xp Ann
  let D0 := d0res.1
  let xp1 := d0res.2
  if D0 = 0 ∧ totalSupply = 0 then do
    let newXp ← amounts.enum.mapM (fun kv => do
      let b ← readA xp1 (kv.1 : Int)
      .ok (b + kv.2))
    let dres ← getD_st newXp Ann
    .ok (dres.1, xp1)
  else do
    let newXp ← xp1.enum.mapM (fun kv => do
      let a ← readA amounts (kv.1 : Int)
      .ok (if isDeposit then kv.2 + a else kv.2 - a))
    let d1res ← getD_st newXp Ann
    let D1 := d1res.1
    let tokenFee ← jdiv (fee * N) (4 * (N - 1))
    let D2 ← (if 0 < totalSupply then do
        let xpReduced ← calcReduced xp1 newXp D1 D0 tokenFee
        let d2res ← getD_st xpReduced Ann
        .ok d2res.1
      else .ok D1)
    if totalSupply = 0 then .ok (D1, xp1)
    else do
      let diff := if isDeposit then D2 - D0 else D0 - D2
      let r ← jdiv (totalSupply * diff) D0
      .ok (r, xp1)

/-- Per-index expected-delta loop of `calcWithdrawOneCoin` building
`xpReduced`. -/
def withdrawReduced (xp : List Int) (i D1 D0 newY tokenFee : Int) :
    Except JsErr (List Int) :=
  xp.enum.foldlM
    (fun acc kv => do
      let ideal ← jdiv (kv.2 * D1) D0
      let dxExpected := if (kv.1 : Int) = i then ideal - newY else kv.2 - ideal
      let red ← jdiv (tokenFee * dxExpected) FEE_DENOMINATOR
      .ok (acc ++ [kv.2 - red]))
    []

/-- `calcWithdrawOneCoin(tokenAmount, i, xp, Ann, totalSupply, fee)`:
single-sided withdrawal quote; returns `(dy, feeAmount)` floored at 0. -/
def calcWithdrawOneCoin_st (tokenAmount i : Int) (xp : List Int)
    (Ann totalSupply fee : Int) :
    Except JsErr ((Int × Int) × List Int) := do
  let N : Int := (xp.length : Int)
  let d0res ← getD_st xp Ann
  let D0 := d0res.1
  let xp1 := d0res.2
  let t ← jdiv (tokenAmount * D0) totalSupply
  let D1 := D0 - t
  let yres ← getYD_st i xp1 Ann D1
  let newY := yres.1
  let xp2 := yres.2
  let tokenFee ← jdiv (fee * N) (4 * (N - 1))
  let xpReduced ← withdrawReduced xp2 i D1 D0 newY tokenFee
  let fres ← getYD_st i xpReduced Ann D1
  let finalY := fres.1
  let xri ← readA xpReduced i
  let dy := xri - finalY - 1
  let xpi ← readA xp2 i
  let feeAmount := xpi - newY - dy
  .ok ((if 0 < dy then dy else 0, if 0 < feeAmount then feeAmount else 0), xp2)

end stableswap

namespace cryptoswap

def PRECISION : Int := 10 ^ 18

def A_MULTIPLIER : Int := 10000

def FEE_DENOMINATOR : Int := 10 ^ 10

def MAX_ITERATIONS : Nat := 255

/-- Read of a 2-element balance tuple `p[k]` used in bigint arithmetic:
out of range is `undefined` and faults. -/
def pget (p : Int × Int) (k : Int) : Except JsErr Int :=
  if k = 0 then .ok p.1 else if k = 1 then .ok p.2 else .error .typeError

/-- Read of a 2-element tuple used only in a comparison (`undefined` is
`none`). -/
def pgetU (p : Int × Int) (k : Int) : Option Int :=
  if k = 0 then some p.1 else if k = 1 then some p.2 else none

/-- Write `p[k] = v` on a 2-element tuple (out-of-range writes touch no
index read afterwards). -/
def pset (p : Int × Int) (k : Int) (v : Int) : Int × Int :=
  if k = 0 then (v, p.2) else if k = 1 then (p.1, v) else p

/-- Read of a 3-element tuple. -/
def tget (p : Int × Int × Int) (k : Int) : Except JsErr Int :=
  if k = 0 then .ok p.1 else if k = 1 then .ok p.2.1
  else if k = 2 then .ok p.2.2 else .error .typeError

/-- Comparison read of a 3-element tuple. -/
def tgetU (p : Int × Int × Int) (k : Int) : Option Int :=
  if k = 0 then some p.1 else if k = 1 then some p.2.1
  else if k = 2 then some p.2.2 else none

/-- Write on a 3-element tuple. -/
def tset (p : Int × Int × Int) (k : Int) (v : Int) : Int × Int × Int :=
  if k = 0 then (v, p.2) else if k = 1 then (p.1, v, p.2.2)
  else if k = 2 then (p.1, p.2.1, v) else p

/-- `TwocryptoParams`: pool parameters for the 2-coin pool.  `precisions`
is optional in the source (`params.precisions ?? [1n, 1n]`). -/
structure TwocryptoParams : Type where
  A : Int
  gamma : Int
  D : Int
  midFee : Int
  outFee : Int
  feeGamma : Int
  priceScale : Int
  balances : Int × Int
  precisions : Option (Int × Int)
deriving DecidableEq

/-- `TricryptoParams`: pool parameters for the 3-coin pool. -/
structure TricryptoParams : Type where
  A : Int
  gamma : Int
  D : Int
  midFee : Int
  outFee : Int
  feeGamma : Int
  priceScales : Int × Int
  balances : Int × Int × Int
  precisions : Option (Int × Int × Int)
deriving DecidableEq

/-- Newton loop of `newtonY` (2-coin).  A first guard halves the previous
guess (`continue`) when the linearised derivative would go negative; the
convergence test compares `|Δy|` with the max of the precomputed absolute
limit and a relative `y / 10^14` threshold. -/
def newtonYLoop (A gamma D xj K0_i convergence_limit : Int) :
    Nat → Int → Except JsErr Int
  | 0, y => .ok y
  | fuel + 1, y => do
    let K0 ← jdiv (K0_i * y * 2) D
    let S := xj + y
    let g1k0 :=
      if K0 < gamma + PRECISION then gamma + PRECISION - K0 + 1
      else K0 - (gamma + PRECISION) + 1
    let m1 ← jdiv (PRECISION * D) gamma
    let m2 ← jdiv (m1 * g1k0) gamma
    let mul1 ← jdiv (m2 * g1k0 * A_MULTIPLIER) A
    let m3 ← jdiv (2 * PRECISION * K0) g1k0
    let mul2 := PRECISION + m3
    let yfprimeBase := PRECISION * y + S * mul2 + mul1
    let dyfprime := D * mul2
    if yfprimeBase < dyfprime then do
      let yh ← jdiv y 2
      newtonYLoop A gamma D xj K0_i convergence_limit fuel yh
    else do
      let yfprime := yfprimeBase - dyfprime
      let fprime ← jdiv yfprime y
      let yMinusBase ← jdiv mul1 fprime
      let yp1 ← jdiv (yfprime + PRECISION * D) fprime
      let yp2 ← jdiv (yMinusBase * PRECISION) K0
      let yPlus := yp1 + yp2
      let ym ← jdiv (PRECISION * S) fprime
      let yMinus := yMinusBase + ym
      let yn ← if yPlus < yMinus then jdiv y 2 else .ok (yPlus - yMinus)
      let diff := if y < yn then yn - y else y - yn
      let threshold ← jdiv yn (10 ^ 14)
      if diff < (if threshold < convergence_limit then convergence_limit
                 else threshold) then .ok yn
      else newtonYLoop A gamma D xj K0_i convergence_limit fuel yn

/-- `newtonY(A, gamma, x, D, i)`: solve for the balance at index `i` of the
2-coin curvature invariant; `x[1 - i]` is the other balance. -/
def newtonY (A gamma : Int) (x : Int × Int) (D : Int) (i : Int) :
    Except JsErr Int := do
  let xj ← pget x (1 - i)
  let y ← jdiv (D * D) (xj * 2 * 2)
  let K0_i ← jdiv (PRECISION * 2 * xj) D
  let ca ← jdiv xj (10 ^ 14)
  let cb ← jdiv D (10 ^ 14)
  let cmax := if ca < cb then cb else ca
  let convergence_limit := if cmax < 100 then 100 else cmax
  newtonYLoop A gamma D xj K0_i convergence_limit MAX_ITERATIONS y

/-- `dynamicFee(xp, feeGamma, midFee, outFee)` (2-coin): interpolates
between mid and out fee by the curvature ratio
`K = 4 * 10^18 * xp[0] * xp[1] / (xp[0] + xp[1])^2` (in the source's
truncation order).  A zero balance sum degenerates to the mid fee. -/
def dynamicFee (xp : Int × Int) (feeGamma midFee outFee : Int) :
    Except JsErr Int := do
  let sum := xp.1 + xp.2
  if sum = 0 then .ok midFee
  else do
    let k1 ← jdiv (PRECISION * 2 * 2 * xp.1) sum
    let K ← jdiv (k1 * xp.2) sum
    let f ← jdiv (feeGamma * PRECISION) (feeGamma + PRECISION - K)
    jdiv (midFee * f + outFee * (PRECISION - f)) PRECISION

/-- `getDy(params, i, j, dx)` (2-coin): forward quote.  `dx === 0n`
short-circuits to 0; otherwise the input is applied to a fresh copy of the
balances, scaled to internal units, `newtonY` solves for the new `j`
balance, `dy = xp[j] - y - 1` is floored at 0 before fees, converted to
external units, and the dynamic fee is applied.  The caller's balance tuple
is returned alongside. -/
def getDy_st (params : TwocryptoParams) (i j dx : Int) :
    Except JsErr (Int × (Int × Int)) := do
  if dx = 0 then .ok (0, params.balances)
  else do
    let precisions := params.precisions.getD (1, 1)
    let price_scale_internal := params.priceScale * precisions.2
    let u ← pget params.balances i
    let xpU := pset params.balances i (u + dx)
    let x1 ← jdiv (xpU.2 * price_scale_internal) PRECISION
    let xp : Int × Int := (xpU.1 * precisions.1, x1)
    let y ← newtonY params.A params.gamma xp params.D j
    let xpj ← pget xp j
    let dy0 := xpj - y - 1
    if dy0 < 0 then .ok (0, params.balances)
    else do
      let xp_after := pset xp j y
      let dy1 ←
        if 0 < j then jdiv (dy0 * PRECISION) price_scale_internal
        else jdiv dy0 precisions.1
      let fee ← dynamicFee xp_after params.feeGamma params.midFee params.outFee
      let fa ← jdiv (dy1 * fee) FEE_DENOMINATOR
      .ok (dy1 - fa, params.balances)

/-- Binary-search loop of `getDx` (2-coin).  When the quote at `mid`
reaches `dy`, the upper end moves to `mid` (with an early `return mid` once
the bracket has width at most 1 — which coincides with the loop's own break
returning the updated `high = mid`); otherwise the lower end moves up.
Fuel exhaustion returns the current `high`. -/
def getDxLoop (params : TwocryptoParams) (i j dy tolerance : Int) :
    Nat → Int → Int → Except JsErr Int
  | 0, _, high => .ok high
  | fuel + 1, low, high => do
    let mid ← jdiv (low + high) 2
    let dres ← getDy_st params i j mid
    let dyCalc := dres.1
    if dy ≤ dyCalc then
      if dyCalc - dy ≤ tolerance then
        if mid - low ≤ 1 then .ok mid
        else if mid - low ≤ 1 then .ok mid
        else getDxLoop params i j dy tolerance fuel low mid
      else
        if mid - low ≤ 1 then .ok mid
        else getDxLoop params i j dy tolerance fuel low mid
    else
      if high - mid ≤ 1 then .ok high
      else getDxLoop params i j dy tolerance fuel mid high

/-- `getDx(params, i, j, dy)` (2-coin): reverse quote by bounded binary
search over `dx ∈ [0, 10 * balances[i]]`.  Returns 0 when `dy` is 0 or at
least the pool's balance of token `j`. -/
def getDx (params : TwocryptoParams) (i j dy : Int) : Except JsErr Int := do
  if dy = 0 then .ok 0
  else if geU dy (pgetU params.balances j) then .ok 0
  else do
    let bi ← pget params.balances i
    let high := bi * 10
    let tolerance ← jdiv dy 10000
    getDxLoop params i j dy tolerance MAX_ITERATIONS 0 high

/-- Sum and `10^18`-scaled product of the two balances other than `i`
computed by the head of `newtonY3`. -/
def newtonY3SP (x : Int × Int × Int) (i : Int) : Except JsErr (Int × Int) := do
  let sp1 ←
    if (0 : Int) ≠ i then do
      let p ← jdiv (PRECISION * x.1) PRECISION
      .ok ((x.1, p) : Int × Int)
    else .ok ((0 : Int), PRECISION)
  let sp2 ←
    if (1 : Int) ≠ i then do
      let p ← jdiv (sp1.2 * x.2.1) PRECISION
      .ok (sp1.1 + x.2.1, p)
    else .ok sp1
  if (2 : Int) ≠ i then do
    let p ← jdiv (sp2.2 * x.2.2) PRECISION
    .ok (sp2.1 + x.2.2, p)
  else .ok sp2

/-- Newton loop of `newtonY3`: identical shape to the 2-coin loop with
`N = 3` and the precomputed sum `S` of the other balances. -/
def newtonY3Loop (A gamma D S K0_i convergence_limit : Int) :
    Nat → Int → Except JsErr Int
  | 0, y => .ok y
  | fuel + 1, y => do
    let K0 ← jdiv (K0_i * y * 3) D
    let S_total := S + y
    let g1k0 :=
      if K0 < gamma + PRECISION then gamma + PRECISION - K0 + 1
      else K0 - (gamma + PRECISION) + 1
    let m1 ← jdiv (PRECISION * D) gamma
    let m2 ← jdiv (m1 * g1k0) gamma
    let mul1 ← jdiv (m2 * g1k0 * A_MULTIPLIER) A
    let m3 ← jdiv (2 * PRECISION * K0) g1k0
    let mul2 := PRECISION + m3
    let yfprimeBase := PRECISION * y + S_total * mul2 + mul1
    let dyfprime := D * mul2
    if yfprimeBase < dyfprime then do
      let yh ← jdiv y 2
      newtonY3Loop A gamma D S K0_i convergence_limit fuel yh
    else do
      let yfprime := yfprimeBase - dyfprime
      let fprime ← jdiv yfprime y
      let yMinusBase ← jdiv mul1 fprime
      let yp1 ← jdiv (yfprime + PRECISION * D) fprime
      let yp2 ← jdiv (yMinusBase * PRECISION) K0
      let yPlus := yp1 + yp2
      let ym ← jdiv (PRECISION * S_total) fprime
      let yMinus := yMinusBase + ym
      let yn ← if yPlus < yMinus then jdiv y 2 else .ok (yPlus - yMinus)
      let diff := if y < yn then yn - y else y - yn
      let threshold ← jdiv yn (10 ^ 14)
      if diff < (if threshold < convergence_limit then convergence_limit
                 else threshold) then .ok yn
      else newtonY3Loop A gamma D S K0_i convergence_limit fuel yn

/-- `newtonY3(A, gamma, x, D, i)`: 3-coin balance solver. -/
def newtonY3 (A gamma : Int) (x : Int × Int × Int) (D : Int) (i : Int) :
    Except JsErr Int := do
  let sp ← newtonY3SP x i
  let S := sp.1
  let prod := sp.2
  let y1 ← jdiv (D * D) prod
  let y ← jdiv (y1 * D) (27 * PRECISION)
  let d2 ← jdiv (D * D) PRECISION
  let K0_i ← jdiv (PRECISION * 9 * prod) d2
  let c0 ← jdiv D (10 ^ 14)
  let c1 ←
    if (0 : Int) ≠ i then do
      let v ← jdiv x.1 (10 ^ 14)
      .ok (if c0 < v then v else c0)
    else .ok c0
  let c2 ←
    if (1 : Int) ≠ i then do
      let v ← jdiv x.2.1 (10 ^ 14)
      .ok (if c1 < v then v else c1)
    else .ok c1
  let c3 ←
    if (2 : Int) ≠ i then do
      let v ← jdiv x.2.2 (10 ^ 14)
      .ok (if c2 < v then v else c2)
    else .ok c2
  let convergence_limit := if c3 < 100 then 100 else c3
  newtonY3Loop A gamma D S K0_i convergence_limit MAX_ITERATIONS y

/-- `dynamicFee3(xp, feeGamma, midFee, outFee)` (3-coin): `K` is folded as
`K = 27 * 10^18; for x in xp: K = K * x / sum`. -/
def dynamicFee3 (xp : Int × Int × Int) (feeGamma midFee outFee : Int) :
    Except JsErr Int := do
  let sum := xp.1 + xp.2.1 + xp.2.2
  if sum = 0 then .ok midFee
  else do
    let k1 ← jdiv (PRECISION * 27 * xp.1) sum
    let k2 ← jdiv (k1 * xp.2.1) sum
    let K ← jdiv (k2 * xp.2.2) sum
    let f ← jdiv (feeGamma * PRECISION) (feeGamma + PRECISION - K)
    jdiv (midFee * f + outFee * (PRECISION - f)) PRECISION

/-- `scaleBalances3(balances, precisions, priceScales)`: scale 3-coin
balances to internal units. -/
def scaleBalances3 (balances : Int × Int × Int)
    (precisions : Int × Int × Int) (priceScales : Int × Int) :
    Except JsErr (Int × Int × Int) := do
  let s1 ← jdiv (balances.2.1 * precisions.2.1 * priceScales.1) PRECISION
  let s2 ← jdiv (balances.2.2 * precisions.2.2 * priceScales.2) PRECISION
  .ok (balances.1 * precisions.1, s1, s2)

/-- `getDy3(params, i, j, dx)`: 3-coin forward quote, structurally parallel
to the 2-coin `getDy`. -/
def getDy3_st (params : TricryptoParams) (i j dx : Int) :
    Except JsErr (Int × (Int × Int × Int)) := do
  if dx = 0 then .ok (0, params.balances)
  else do
    let precisions := params.precisions.getD (1, 1, 1)
    let u ← tget params.balances i
    let xpU := tset params.balances i (u + dx)
    let xp ← scaleBalances3 xpU precisions params.priceScales
    let y ← newtonY3 params.A params.gamma xp params.D j
    let xpj ← tget xp j
    let dy0 := xpj - y - 1
    if dy0 < 0 then .ok (0, params.balances)
    else do
      let xp_after := tset xp j y
      let dy1 ←
        if j = 0 then jdiv dy0 precisions.1
        else if j = 1 then jdiv (dy0 * PRECISION) (precisions.2.1 * params.priceScales.1)
        else jdiv (dy0 * PRECISION) (precisions.2.2 * params.priceScales.2)
      let fee ← dynamicFee3 xp_after params.feeGamma params.midFee params.outFee
      let fa ← jdiv (dy1 * fee) FEE_DENOMINATOR
      .ok (dy1 - fa, params.balances)

/-- Binary-search loop of `getDx3`, identical in shape to the 2-coin one. -/
def getDx3Loop (params : TricryptoParams) (i j dy tolerance : Int) :
    Nat → Int → Int → Except JsErr Int
  | 0, _, high => .ok high
  | fuel + 1, low, high => do
    let mid ← jdiv (low + high) 2
    let dres ← getDy3_st params i j mid
    let dyCalc := dres.1
    if dy ≤ dyCalc then
      if dyCalc - dy ≤ tolerance then
        if mid - low ≤ 1 then .ok mid
        else if mid - low ≤ 1 then .ok mid
        else getDx3Loop params i j dy tolerance fuel low mid
      else
        if mid - low ≤ 1 then .ok mid
        else getDx3Loop params i j dy tolerance fuel low mid
    else
      if high - mid ≤ 1 then .ok high
      else getDx3Loop params i j dy tolerance fuel mid high

/-- `getDx3(params, i, j, dy)`: 3-coin reverse quote by bounded binary
search. -/
def getDx3 (params : TricryptoParams) (i j dy : Int) : Except JsErr Int := do
  if dy = 0 then .ok 0
  else if geU dy (tgetU params.balances j) then .ok 0
  else do
    let bi ← tget params.balances i
    let high := bi * 10
    let tolerance ← jdiv dy 10000
    getDx3Loop params i j dy tolerance MAX_ITERATIONS 0 high

end cryptoswap

/-- A degenerate Twocrypto pool with a zero balance of coin 0, used to
probe the reverse-quote search. -/
def czTwo : cryptoswap.TwocryptoParams :=
  ⟨400000, 145 * 10 ^ 12, 2000 * 10 ^ 18, 3000000, 30000000, 230 * 10 ^ 12,
   10 ^ 18, (0, 100), some (1, 1)⟩

/-- A degenerate Tricrypto pool with a zero balance of coin 0. -/
def czThree : cryptoswap.TricryptoParams :=
  ⟨400000, 145 * 10 ^ 12, 2000 * 10 ^ 18, 3000000, 30000000, 230 * 10 ^ 12,
   (10 ^ 18, 10 ^ 18), (0, 50, 100), some (1, 1, 1)⟩

/-! ## Basic lemmas about the JS primitives -/

theorem exBind_ok {α β : Type} {x : Except JsErr α} {f : α → Except JsErr β}
    {b : β} : (x >>= f) = .ok b ↔ ∃ a, x = .ok a ∧ f a = .ok b := by
  cases x <;> simp [Bind.bind, Except.bind]

theorem exBind_error {α β : Type} {x : Except JsErr α} {f : α → Except JsErr β}
    {e : JsErr} :
    (x >>= f) = .error e ↔ x = .error e ∨ ∃ a, x = .ok a ∧ f a = .error e := by
  cases x <;> simp [Bind.bind, Except.bind]

theorem ok_bind {α β : Type} (a : α) (f : α → Except JsErr β) :
    (Except.ok a >>= f) = f a := rfl

theorem error_bind {α β : Type} (e : JsErr) (f : α → Except JsErr β) :
    ((Except.error e : Except JsErr α) >>= f) = .error e := rfl

theorem jdiv_ok {a b q : Int} : jdiv a b = .ok q ↔ b ≠ 0 ∧ a.tdiv b = q := by
  unfold jdiv
  split <;> simp_all

theorem jdiv_ok_of {a b : Int} (h : b ≠ 0) : jdiv a b = .ok (a.tdiv b) := by
  simp [jdiv, h]

theorem jdiv_zero_divisor {a : Int} : jdiv a 0 = .error .divideByZero := by
  simp [jdiv]

/-- A truncating division with non-negative operands agrees with Euclidean
division. -/
theorem tdiv_eq_ediv_nn {a b : Int} (ha : 0 ≤ a) (hb : 0 ≤ b) :
    a.tdiv b = a / b :=
  Int.tdiv_eq_ediv ha hb

/-- `jdiv` of non-negative operands with a positive divisor returns a
non-negative quotient. -/
theorem jdiv_nonneg {a b q : Int} (ha : 0 ≤ a) (hb : 0 ≤ b)
    (h : jdiv a b = .ok q) : 0 ≤ q := by
  rcases jdiv_ok.1 h with ⟨_, rfl⟩
  exact Int.tdiv_nonneg ha hb

/-- Division antitone in a positive divisor (non-negative numerator). -/
theorem ediv_le_ediv_left_nn {a b c : Int} (ha : 0 ≤ a) (hb : 0 < b)
    (hbc : b ≤ c) : a / c ≤ a / b := by
  rcases lt_or_le 0 c with hc | hc
  · rw [Int.le_ediv_iff_mul_le hb]
    calc a / c * b ≤ a / c * c := by
          have := Int.ediv_nonneg ha (le_of_lt hc)
          exact mul_le_mul_of_nonneg_left hbc this
      _ ≤ a := Int.ediv_mul_le a (ne_of_gt hc)
  · exact absurd (lt_of_lt_of_le hb hbc) (not_lt.2 hc)

/-- `a / b ≤ c` from `a ≤ c * b` (positive divisor, non-negative bound). -/
theorem ediv_le_of_le_mul {a b c : Int} (hb : 0 < b) (h : a < (c + 1) * b) :
    a / b ≤ c := by
  have := (Int.ediv_lt_iff_lt_mul hb (b := c + 1)).2 h
  omega

/-! ## C2 — `getD` with a zero balance among non-zero balances -/

/-- The running-product fold of `getD` faults with the raw division-by-zero
error as soon as a zero balance is reached. -/
theorem getDFold_zero_mem {xp : List Int} (h : (0 : Int) ∈ xp) (D : Int) :
    ∀ init : Int, xp.foldlM (fun dp x => jdiv (dp * D) x) init =
      (.error .divideByZero : Except JsErr Int) := by
  induction xp with
  | nil => cases h
  | cons x t ih =>
    intro init
    rcases List.mem_cons.1 h with h0 | hmem
    · subst h0
      simp [List.foldlM, jdiv, Bind.bind, Except.bind]
    · by_cases hx : x = 0
      · subst hx
        simp [List.foldlM, jdiv, Bind.bind, Except.bind]
      · simp only [List.foldlM, jdiv_ok_of hx, Bind.bind, Except.bind]
        exact ih hmem _

theorem getDLoop_zero_mem {xp : List Int} (h : (0 : Int) ∈ xp)
    (Ann N nPow S D : Int) (fuel : Nat) :
    stableswap.getDLoop xp Ann N nPow S (fuel + 1) D =
      .error .divideByZero := by
  show (do
    let dp ← xp.foldlM (fun dp x => jdiv (dp * D) x) D
    let D_P ← jdiv dp nPow
    let t1 ← jdiv (Ann * S) stableswap.A_PRECISION
    let numerator := (t1 + D_P * N) * D
    let t2 ← jdiv ((Ann - stableswap.A_PRECISION) * D) stableswap.A_PRECISION
    let denominator := t2 + (N + 1) * D_P
    let Dn ← jdiv numerator denominator
    if (if D < Dn then Dn - D ≤ 1 else D - Dn ≤ 1) then .ok Dn
    else stableswap.getDLoop xp Ann N nPow S fuel Dn) = .error .divideByZero
  rw [getDFold_zero_mem h D D]
  rfl

/-- C2 (amended): whenever a zero balance occurs in `xp` while the balance
sum is non-zero, `getD` propagates the raw division-by-zero fault of the
running-product division — the code defines no typed `DomainError`. -/
theorem getD_zero_balance_divide_fault (xp : List Int) (Ann : Int)
    (hmem : (0 : Int) ∈ xp) (hS : xp.foldl (· + ·) 0 ≠ 0) :
    stableswap.getD_st xp Ann = .error .divideByZero := by
  show (if xp.foldl (· + ·) 0 = 0 then
      (.ok (0, xp) : Except JsErr (Int × List Int))
    else do
      let D ← stableswap.getDLoop xp Ann (xp.length : Int)
        ((xp.length : Int) ^ xp.length) (xp.foldl (· + ·) 0)
        stableswap.MAX_ITERATIONS (xp.foldl (· + ·) 0)
      .ok (D, xp)) = .error .divideByZero
  rw [if_neg hS]
  rw [show stableswap.MAX_ITERATIONS = 254 + 1 from rfl]
  rw [getDLoop_zero_mem hmem]
  rfl

/-- C2 counterexample: the claim says the solver fails with a typed
`DomainError`; at `xp = [0, 10^18]`, `Ann = 20000` it fails with the raw
bigint division-by-zero fault instead (and the code's error vocabulary
contains no `DomainError` at all). -/
theorem getD_zero_balance_counterexample :
    stableswap.getD_st [0, 10 ^ 18] 20000 = .error .divideByZero := by rfl

/-- Witness for `getD_zero_balance_divide_fault` at `xp = [0, 2 * 10^18]`,
`Ann = 500`. -/
theorem getD_zero_balance_divide_fault_witness :
    stableswap.getD_st [0, 2 * 10 ^ 18] 500 = .error .divideByZero :=
  getD_zero_balance_divide_fault [0, 2 * 10 ^ 18] 500 (by decide) (by decide)

/-! ## C3 — index validation in the quote operations -/

theorem readA_oob {xs : List Int} {k : Int}
    (h : k < 0 ∨ (xs.length : Int) ≤ k) : readA xs k = .error .typeError := by
  unfold readA
  rw [dif_neg]
  rintro ⟨h0, hlt⟩
  omega

/-- C3 (amended): the quote operations perform no index validation.  A
StableSwap `getDy` call with an out-of-range input index fails with the raw
`TypeError` of bigint arithmetic on `undefined` for every input — not with
a typed `InvalidIndex` error. -/
theorem getDy_out_of_range_raw_type_fault (i j dx : Int) (xp : List Int)
    (Ann baseFee feeMultiplier : Int)
    (h : i < 0 ∨ (xp.length : Int) ≤ i) :
    stableswap.getDy_st i j dx xp Ann baseFee feeMultiplier =
      .error .typeError := by
  show (readA xp i >>= fun xi => _) = Except.error JsErr.typeError
  rw [readA_oob h]
  rfl

/-- Witness for `getDy_out_of_range_raw_type_fault`: index 2 on a 2-coin
pool. -/
theorem getDy_out_of_range_raw_type_fault_witness :
    stableswap.getDy_st 2 1 5 [10 ^ 18, 10 ^ 18] 20000 4000000 (2 * 10 ^ 10) =
      .error .typeError :=
  getDy_out_of_range_raw_type_fault 2 1 5 [10 ^ 18, 10 ^ 18] 20000 4000000
    (2 * 10 ^ 10) (by right; decide)

/-- C3 counterexample: equal indices are silently accepted.
`getDy(0, 0, 10^19)` on a balanced StableSwap pool returns a value (no
`InvalidIndex` error), and CryptoSwap `getDy` with the out-of-range index 5
silently returns 0 through the `dx === 0n` shortcut. -/
theorem getDy_invalid_indices_silently_accepted :
    stableswap.getDy_st 0 0 (10 * 10 ^ 18)
        [1000 * 10 ^ 18, 1000 * 10 ^ 18] 20000 4000000 (2 * 10 ^ 10) =
      .ok (909614283947846501903, [1000 * 10 ^ 18, 1000 * 10 ^ 18]) ∧
    cryptoswap.getDy_st
        ⟨400000, 145 * 10 ^ 12, 2000 * 10 ^ 18, 3000000, 30000000,
         230 * 10 ^ 12, 10 ^ 18, (1000 * 10 ^ 18, 1000 * 10 ^ 18),
         some (1, 1)⟩ 5 1 0 =
      .ok (0, (1000 * 10 ^ 18, 1000 * 10 ^ 18)) := by
  exact ⟨by rfl, by rfl⟩

/-! ## C5 — zero-input identities -/

theorem foldl_add_replicate_zero (n : Nat) :
    ∀ acc : Int, (List.replicate n (0 : Int)).foldl (· + ·) acc = acc := by
  induction n with
  | zero => intro acc; rfl
  | succ m ih => intro acc; simpa [List.replicate] using ih acc

/-- C5 (amended): the zero-input identities that do hold: `getD` of an
all-zero balance array is 0; StableSwap `getDx(i, j, 0) = 0`; CryptoSwap
`getDy(i, j, 0) = 0` and `getDx(i, j, 0) = 0` in both the 2-coin and 3-coin
variants.  (StableSwap `getDy(i, j, 0)` is NOT 0: see the counterexample.) -/
theorem zero_input_identities :
    (∀ (n : Nat) (Ann : Int),
      stableswap.getD_st (List.replicate n 0) Ann =
        .ok (0, List.replicate n 0)) ∧
    (∀ (i j : Int) (xp : List Int) (Ann baseFee feeMultiplier : Int),
      stableswap.getDx_st i j 0 xp Ann baseFee feeMultiplier = .ok (0, xp)) ∧
    (∀ (p : cryptoswap.TwocryptoParams) (i j : Int),
      cryptoswap.getDy_st p i j 0 = .ok (0, p.balances)) ∧
    (∀ (p : cryptoswap.TwocryptoParams) (i j : Int),
      cryptoswap.getDx p i j 0 = .ok 0) ∧
    (∀ (p : cryptoswap.TricryptoParams) (i j : Int),
      cryptoswap.getDy3_st p i j 0 = .ok (0, p.balances)) ∧
    (∀ (p : cryptoswap.TricryptoParams) (i j : Int),
      cryptoswap.getDx3 p i j 0 = .ok 0) := by
  refine ⟨fun n Ann => ?_, fun i j xp Ann bf fm => ?_, fun p i j => ?_,
    fun p i j => ?_, fun p i j => ?_, fun p i j => ?_⟩
  · show (if (List.replicate n (0 : Int)).foldl (· + ·) 0 = 0 then
        (.ok (0, List.replicate n 0) : Except JsErr (Int × List Int))
      else _) = _
    rw [if_pos (foldl_add_replicate_zero n 0)]
  · simp [stableswap.getDx_st]
  · simp [cryptoswap.getDy_st]
  · simp [cryptoswap.getDx]
  · simp [cryptoswap.getDy3_st]
  · simp [cryptoswap.getDx3]

/-- C5 counterexample: StableSwap `getDy` has no zero-input short-circuit;
at `dx = 0` on a balanced pool it returns `-1` (the `-1` rounding applied
to an unchanged balance), not 0. -/
theorem getDy_stableswap_zero_input_not_zero :
    stableswap.getDy_st 0 1 0 [1000 * 10 ^ 18, 1000 * 10 ^ 18] 20000
        4000000 (2 * 10 ^ 10) =
      .ok (-1, [1000 * 10 ^ 18, 1000 * 10 ^ 18]) ∧ (-1 : Int) ≠ 0 := by
  exact ⟨by rfl, by decide⟩

/-! ## C8 — boundary guard of the reverse quotes -/

/-- C8: every `getDx` returns 0 whenever the desired output `dy` is at
least the pool's balance of token `j` (StableSwap, 2-coin CryptoSwap and
3-coin CryptoSwap). -/
theorem getDx_boundary_guard_zero :
    (∀ (i j dy : Int) (xp : List Int) (Ann baseFee feeMultiplier bj : Int),
      readU xp j = some bj → bj ≤ dy →
      stableswap.getDx_st i j dy xp Ann baseFee feeMultiplier = .ok (0, xp)) ∧
    (∀ (p : cryptoswap.TwocryptoParams) (i j dy bj : Int),
      cryptoswap.pgetU p.balances j = some bj → bj ≤ dy →
      cryptoswap.getDx p i j dy = .ok 0) ∧
    (∀ (p : cryptoswap.TricryptoParams) (i j dy bj : Int),
      cryptoswap.tgetU p.balances j = some bj → bj ≤ dy →
      cryptoswap.getDx3 p i j dy = .ok 0) := by
  refine ⟨fun i j dy xp Ann bf fm bj hb hle => ?_,
    fun p i j dy bj hb hle => ?_, fun p i j dy bj hb hle => ?_⟩
  · by_cases h0 : dy = 0
    · simp [stableswap.getDx_st, h0]
    · simp [stableswap.getDx_st, h0, geU, hb, hle]
  · by_cases h0 : dy = 0
    · simp [cryptoswap.getDx, h0]
    · simp [cryptoswap.getDx, h0, geU, hb, hle]
  · by_cases h0 : dy = 0
    · simp [cryptoswap.getDx3, h0]
    · simp [cryptoswap.getDx3, h0, geU, hb, hle]

/-- Witness for `getDx_boundary_guard_zero` on concrete 2-, 2- and 3-coin
pools with `dy` above the target balance. -/
theorem getDx_boundary_guard_zero_witness :
    stableswap.getDx_st 0 1 9 [5, 7] 20000 4000000 (2 * 10 ^ 10) =
      .ok (0, [5, 7]) ∧
    cryptoswap.getDx
      ⟨400000, 145 * 10 ^ 12, 100, 3000000, 30000000, 230 * 10 ^ 12,
       10 ^ 18, (5, 7), some (1, 1)⟩ 0 1 9 = .ok 0 ∧
    cryptoswap.getDx3
      ⟨400000, 145 * 10 ^ 12, 100, 3000000, 30000000, 230 * 10 ^ 12,
       (10 ^ 18, 10 ^ 18), (5, 7, 9), some (1, 1, 1)⟩ 0 2 11 = .ok 0 :=
  ⟨getDx_boundary_guard_zero.1 0 1 9 [5, 7] 20000 4000000 (2 * 10 ^ 10) 7
      (by rfl) (by decide),
   getDx_boundary_guard_zero.2.1 _ 0 1 9 7 (by rfl) (by decide),
   getDx_boundary_guard_zero.2.2 _ 0 2 11 9 (by rfl) (by decide)⟩

/-! ## C10 — StableSwap `dynamicFee` at the all-zero pair -/

/-- C10: with an off-peg multiplier above `FEE_DENOMINATOR`, StableSwap
`dynamicFee(0, 0, …)` divides by `(0 + 0)^2` and fails with the raw
division-by-zero fault; for every non-negative pair with a positive sum the
computation is well-defined and returns a fee value. -/
theorem dynamicFee_zero_pair_divide_fault :
    (∀ baseFee feeMultiplier : Int,
      stableswap.FEE_DENOMINATOR < feeMultiplier →
      stableswap.dynamicFee 0 0 baseFee feeMultiplier =
        .error .divideByZero) ∧
    (∀ xpi xpj baseFee feeMultiplier : Int, 0 ≤ xpi → 0 ≤ xpj →
      0 < xpi + xpj →
      ∃ v, stableswap.dynamicFee xpi xpj baseFee feeMultiplier = .ok v) := by
  constructor
  · intro baseFee feeMultiplier hm
    simp [stableswap.dynamicFee, not_le.2 hm, jdiv, Bind.bind, Except.bind]
  · intro xpi xpj baseFee feeMultiplier hi hj hsum
    unfold stableswap.dynamicFee
    split
    · exact ⟨baseFee, rfl⟩
    · rename_i hm
      have hsq : (xpi + xpj) ^ 2 ≠ 0 := pow_ne_zero 2 (ne_of_gt hsum)
      show ∃ v, (do
        let q ← jdiv ((feeMultiplier - stableswap.FEE_DENOMINATOR) * 4 *
          xpi * xpj) ((xpi + xpj) ^ 2)
        jdiv (feeMultiplier * baseFee) (q + stableswap.FEE_DENOMINATOR)) =
          Except.ok v
      rw [jdiv_ok_of hsq, ok_bind]
      have hq : 0 ≤ ((feeMultiplier - stableswap.FEE_DENOMINATOR) * 4 *
          xpi * xpj).tdiv ((xpi + xpj) ^ 2) := by
        apply Int.tdiv_nonneg _ (by positivity)
        have : 0 ≤ feeMultiplier - stableswap.FEE_DENOMINATOR := by
          simp only [stableswap.FEE_DENOMINATOR] at hm ⊢
          omega
        positivity
      have hden : ((feeMultiplier - stableswap.FEE_DENOMINATOR) * 4 *
          xpi * xpj).tdiv ((xpi + xpj) ^ 2) + stableswap.FEE_DENOMINATOR ≠ 0 := by
        have : (0 : Int) < stableswap.FEE_DENOMINATOR := by decide
        omega
      exact ⟨_, jdiv_ok_of hden⟩

/-- Witness for `dynamicFee_zero_pair_divide_fault` at concrete inputs. -/
theorem dynamicFee_zero_pair_divide_fault_witness :
    stableswap.dynamicFee 0 0 4000000 (2 * 10 ^ 10) =
      .error .divideByZero ∧
    ∃ v, stableswap.dynamicFee (3 * 10 ^ 18) (10 ^ 18) 4000000
      (2 * 10 ^ 10) = .ok v :=
  ⟨dynamicFee_zero_pair_divide_fault.1 4000000 (2 * 10 ^ 10) (by decide),
   dynamicFee_zero_pair_divide_fault.2 (3 * 10 ^ 18) (10 ^ 18) 4000000
     (2 * 10 ^ 10) (by decide) (by decide) (by decide)⟩

/-! ## C1 — sign of the forward quotes -/

/-- C1 counterexample: StableSwap `getDy` applies no floor at 0; at
`dx = 0` on a balanced pool the conservative `-1` rounding makes the
post-fee output `-1 < 0`. -/
theorem getDy_stableswap_negative_output :
    stableswap.getDy_st 0 1 0 [500 * 10 ^ 18, 500 * 10 ^ 18] 20000 4000000
        (2 * 10 ^ 10) =
      .ok (-1, [500 * 10 ^ 18, 500 * 10 ^ 18]) ∧ (-1 : Int) < 0 := by
  exact ⟨by rfl, by decide⟩

/-! ## C6 — balanced-pool identity of `getD` -/

theorem foldl_add_replicate (n : Nat) (b : Int) :
    ∀ acc : Int, (List.replicate n b).foldl (· + ·) acc = acc + n * b := by
  induction n with
  | zero => intro acc; simp
  | succ m ih =>
    intro acc
    rw [List.replicate_succ]
    show (List.replicate m b).foldl (· + ·) (acc + b) = acc + (m + 1 : Nat) * b
    rw [ih (acc + b)]
    push_cast
    ring

/-- The running product `D_P` of `getD` over `k` equal balances `b`
(with `D = n * b`) is exact: each step multiplies by `n`. -/
theorem getDFold_replicate_pow (b : Int) (hb : b ≠ 0) (n : Nat) :
    ∀ (k : Nat) (e : Nat),
      (List.replicate k b).foldlM
        (fun dp x => jdiv (dp * ((n : Int) * b)) x) ((n : Int) ^ e * b) =
        (.ok ((n : Int) ^ (e + k) * b) : Except JsErr Int) := by
  intro k
  induction k with
  | zero =>
    intro e
    show (pure ((n : Int) ^ e * b) : Except JsErr Int) =
      .ok ((n : Int) ^ (e + 0) * b)
    rfl
  | succ m ih =>
    intro e
    rw [List.replicate_succ]
    show (jdiv ((n : Int) ^ e * b * ((n : Int) * b)) b >>= fun a =>
      (List.replicate m b).foldlM
        (fun dp x => jdiv (dp * ((n : Int) * b)) x) a) = _
    have hdq : ((n : Int) ^ e * b * ((n : Int) * b)).tdiv b =
        (n : Int) ^ (e + 1) * b := by
      rw [show (n : Int) ^ e * b * ((n : Int) * b) =
          ((n : Int) ^ (e + 1) * b) * b by ring]
      exact Int.mul_tdiv_cancel _ hb
    rw [jdiv_ok_of hb, hdq, ok_bind, ih (e + 1)]
    rw [show e + 1 + m = e + (m + 1) by omega]

/-- On `n` equal balances `b` with `Ann ≥ A_PRECISION`, one Newton step of
the `getD` loop started at `D = S = n * b` is the exact fixed point, so the
loop converges immediately to `n * b`. -/
theorem getDLoop_balanced_step (n : Nat) (b Ann : Int) (fuel : Nat)
    (h2 : 2 ≤ n) (hb : 0 < b) (hAnn : stableswap.A_PRECISION ≤ Ann) :
    stableswap.getDLoop (List.replicate n b) Ann (n : Int) ((n : Int) ^ n)
      ((n : Int) * b) (fuel + 1) ((n : Int) * b) = .ok ((n : Int) * b) := by
  have hbne : b ≠ 0 := ne_of_gt hb
  have hn : (0 : Int) < (n : Int) := by
    exact_mod_cast Nat.lt_of_lt_of_le (by omega) h2
  have hSpos : 0 < (n : Int) * b := by positivity
  show (do
    let dp ← (List.replicate n b).foldlM
      (fun dp x => jdiv (dp * ((n : Int) * b)) x) ((n : Int) * b)
    let D_P ← jdiv dp ((n : Int) ^ n)
    let t1 ← jdiv (Ann * ((n : Int) * b)) stableswap.A_PRECISION
    let numerator := (t1 + D_P * (n : Int)) * ((n : Int) * b)
    let t2 ← jdiv ((Ann - stableswap.A_PRECISION) * ((n : Int) * b))
      stableswap.A_PRECISION
    let denominator := t2 + ((n : Int) + 1) * D_P
    let Dn ← jdiv numerator denominator
    if (if (n : Int) * b < Dn then Dn - (n : Int) * b ≤ 1
        else (n : Int) * b - Dn ≤ 1) then (.ok Dn : Except JsErr Int)
    else (stableswap.getDLoop (List.replicate n b) Ann ((n : Int))
      ((n : Int) ^ n) ((n : Int) * b) fuel Dn)) = .ok ((n : Int) * b)
  have hfold := getDFold_replicate_pow b hbne n n 1
  rw [show (n : Int) ^ 1 * b = (n : Int) * b by ring] at hfold
  rw [hfold, ok_bind]
  have hnne : ((n : Int) ^ n) ≠ 0 := by positivity
  have hDP : ((n : Int) ^ (1 + n) * b).tdiv ((n : Int) ^ n) =
      (n : Int) * b := by
    rw [show (n : Int) ^ (1 + n) * b = ((n : Int) * b) * (n : Int) ^ n by
      rw [pow_add]; ring]
    exact Int.mul_tdiv_cancel _ hnne
  rw [jdiv_ok_of hnne, hDP, ok_bind]
  have hAp : (stableswap.A_PRECISION : Int) ≠ 0 := by decide
  rw [jdiv_ok_of hAp, ok_bind, jdiv_ok_of hAp, ok_bind]
  set S : Int := (n : Int) * b with hSdef
  have hSnn : 0 ≤ S := le_of_lt hSpos
  have hApos : (0 : Int) < stableswap.A_PRECISION := by decide
  have hAnnnn : 0 ≤ Ann := le_trans (by decide) hAnn
  have ht2 : ((Ann - stableswap.A_PRECISION) * S).tdiv
      stableswap.A_PRECISION = (Ann * S).tdiv stableswap.A_PRECISION - S := by
    have hnum : 0 ≤ (Ann - stableswap.A_PRECISION) * S :=
      mul_nonneg (by omega) hSnn
    rw [tdiv_eq_ediv_nn hnum (le_of_lt hApos),
      tdiv_eq_ediv_nn (mul_nonneg hAnnnn hSnn) (le_of_lt hApos)]
    rw [show (Ann - stableswap.A_PRECISION) * S =
      Ann * S + -S * stableswap.A_PRECISION by ring]
    rw [Int.add_mul_ediv_right _ _ (ne_of_gt hApos)]
    ring
  rw [ht2]
  set t : Int := (Ann * S).tdiv stableswap.A_PRECISION with htdef
  have htnn : 0 ≤ t := Int.tdiv_nonneg (mul_nonneg hAnnnn hSnn)
    (le_of_lt hApos)
  have hdenpos : 0 < t - S + ((n : Int) + 1) * S := by
    have hnS : 0 < (n : Int) * S := by positivity
    nlinarith
  have hquot : ((t + S * (n : Int)) * S).tdiv (t - S + ((n : Int) + 1) * S) =
      S := by
    rw [show t - S + ((n : Int) + 1) * S = t + S * (n : Int) by ring]
    have hpos : (0 : Int) < t + S * (n : Int) := by
      rw [show t + S * (n : Int) = t - S + ((n : Int) + 1) * S by ring]
      exact hdenpos
    exact Int.mul_tdiv_cancel_left _ (ne_of_gt hpos)
  simp only [jdiv_ok_of (ne_of_gt hdenpos), hquot, ok_bind]
  simp

/-- C6: for `n` equal positive balances `b` (any `2 ≤ n ≤ 8`) and any
`Ann ≥ A_PRECISION`, `getD` converges on the first Newton step to exactly
`n * b` — in particular within the claimed `10^18` absolute tolerance of
`n * b`. -/
theorem getD_balanced_exact (n : Nat) (b Ann : Int) (h2 : 2 ≤ n) (_h8 : n ≤ 8)
    (hb : 0 < b) (hAnn : stableswap.A_PRECISION ≤ Ann) :
    ∃ D', stableswap.getD_st (List.replicate n b) Ann =
        .ok (D', List.replicate n b) ∧
      D' = (n : Int) * b ∧ (D' - (n : Int) * b).natAbs ≤ 10 ^ 18 := by
  have hbne : b ≠ 0 := ne_of_gt hb
  have hS : (List.replicate n b).foldl (· + ·) 0 = (n : Int) * b := by
    rw [foldl_add_replicate n b 0, zero_add]
  have hSpos : 0 < (n : Int) * b := by
    have : (0 : Int) < (n : Int) := by exact_mod_cast Nat.lt_of_lt_of_le (by omega) h2
    positivity
  have hSne : (List.replicate n b).foldl (· + ·) 0 ≠ 0 := by
    rw [hS]; exact ne_of_gt hSpos
  refine ⟨(n : Int) * b, ?_, rfl, by simp⟩
  show (if (List.replicate n b).foldl (· + ·) 0 = 0 then
      (.ok (0, List.replicate n b) : Except JsErr (Int × List Int))
    else do
      let D ← stableswap.getDLoop (List.replicate n b) Ann
        (((List.replicate n b).length : Nat) : Int)
        ((((List.replicate n b).length : Nat) : Int) ^
          (List.replicate n b).length)
        ((List.replicate n b).foldl (· + ·) 0)
        stableswap.MAX_ITERATIONS ((List.replicate n b).foldl (· + ·) 0)
      .ok (D, List.replicate n b)) = .ok ((n : Int) * b, List.replicate n b)
  rw [if_neg hSne]
  rw [List.length_replicate, hS]
  rw [show stableswap.MAX_ITERATIONS = 254 + 1 from rfl]
  rw [getDLoop_balanced_step n b Ann 254 h2 hb hAnn]
  rfl

/-- Witness for `getD_balanced_exact`: a 2-coin pool with balance `10^21`
and `Ann = 20000`. -/
theorem getD_balanced_exact_witness :
    ∃ D', stableswap.getD_st (List.replicate 2 (1000 * 10 ^ 18)) 20000 =
        .ok (D', List.replicate 2 (1000 * 10 ^ 18)) ∧
      D' = (2 : Int) * (1000 * 10 ^ 18) ∧
      (D' - (2 : Int) * (1000 * 10 ^ 18)).natAbs ≤ 10 ^ 18 :=
  getD_balanced_exact 2 (1000 * 10 ^ 18) 20000 (by decide) (by decide)
    (by decide) (by decide)

/-! ## C9 — no core operation mutates its caller's balance array

Every state-threaded embedding returns the caller's array; the lemmas
below show the returned store always equals the argument: all writes in
the sources go to freshly created local copies. -/

theorem getD_st_frame {xp : List Int} {Ann : Int} {r : Int × List Int}
    (h : stableswap.getD_st xp Ann = .ok r) : r.2 = xp := by
  simp only [stableswap.getD_st] at h
  split at h
  · cases h; rfl
  · rcases exBind_ok.1 h with ⟨D, _, hD⟩
    cases hD; rfl

theorem getY_st_frame {i j x : Int} {xp : List Int} {Ann D : Int}
    {r : Int × List Int} (h : stableswap.getY_st i j x xp Ann D = .ok r) :
    r.2 = xp := by
  simp only [stableswap.getY_st] at h
  rcases exBind_ok.1 h with ⟨sc, _, h⟩
  rcases exBind_ok.1 h with ⟨c, _, h⟩
  rcases exBind_ok.1 h with ⟨t, _, h⟩
  rcases exBind_ok.1 h with ⟨y, _, h⟩
  cases h; rfl

theorem getYD_st_frame {i : Int} {xp : List Int} {Ann D : Int}
    {r : Int × List Int} (h : stableswap.getYD_st i xp Ann D = .ok r) :
    r.2 = xp := by
  simp only [stableswap.getYD_st] at h
  rcases exBind_ok.1 h with ⟨sc, _, h⟩
  rcases exBind_ok.1 h with ⟨c, _, h⟩
  rcases exBind_ok.1 h with ⟨t, _, h⟩
  rcases exBind_ok.1 h with ⟨y, _, h⟩
  cases h; rfl

theorem getDy_st_frame {i j dx : Int} {xp : List Int}
    {Ann baseFee feeMultiplier : Int} {r : Int × List Int}
    (h : stableswap.getDy_st i j dx xp Ann baseFee feeMultiplier = .ok r) :
    r.2 = xp := by
  simp only [stableswap.getDy_st] at h
  rcases exBind_ok.1 h with ⟨xi, _, h⟩
  rcases exBind_ok.1 h with ⟨dres, hd, h⟩
  rcases exBind_ok.1 h with ⟨nxi, _, h⟩
  rcases exBind_ok.1 h with ⟨yres, hy, h⟩
  rcases exBind_ok.1 h with ⟨xj, _, h⟩
  rcases exBind_ok.1 h with ⟨ai, _, h⟩
  rcases exBind_ok.1 h with ⟨bi, _, h⟩
  rcases exBind_ok.1 h with ⟨fi, _, h⟩
  rcases exBind_ok.1 h with ⟨fj, _, h⟩
  rcases exBind_ok.1 h with ⟨fee, _, h⟩
  rcases exBind_ok.1 h with ⟨feeAmount, _, h⟩
  cases h
  exact (getY_st_frame hy).trans (getD_st_frame hd)

theorem getDx_st_frame {i j dy : Int} {xp : List Int}
    {Ann baseFee feeMultiplier : Int} {r : Int × List Int}
    (h : stableswap.getDx_st i j dy xp Ann baseFee feeMultiplier = .ok r) :
    r.2 = xp := by
  simp only [stableswap.getDx_st] at h
  split at h
  · cases h; rfl
  · split at h
    · cases h; rfl
    · rcases exBind_ok.1 h with ⟨dres, hd, h⟩
      rcases exBind_ok.1 h with ⟨xpi, _, h⟩
      rcases exBind_ok.1 h with ⟨xpj, _, h⟩
      rcases exBind_ok.1 h with ⟨fee, _, h⟩
      rcases exBind_ok.1 h with ⟨dwf, _, h⟩
      split at h
      · cases h; exact ((getD_st_frame hd : dres.2 = xp) :)
      · rcases exBind_ok.1 h with ⟨xres, hx, h⟩
        cases h
        exact (((getY_st_frame hx).trans (getD_st_frame hd) :
          xres.2 = xp) :)

theorem calcTokenAmount_st_frame {amounts : List Int} {isDeposit : Bool}
    {xp : List Int} {Ann totalSupply fee : Int} {r : Int × List Int}
    (h : stableswap.calcTokenAmount_st amounts isDeposit xp Ann totalSupply
      fee = .ok r) : r.2 = xp := by
  simp only [stableswap.calcTokenAmount_st] at h
  rcases exBind_ok.1 h with ⟨d0res, hd0, h⟩
  split at h
  · rcases exBind_ok.1 h with ⟨newXp, _, h⟩
    rcases exBind_ok.1 h with ⟨dres, _, h⟩
    cases h; exact ((getD_st_frame hd0 : d0res.2 = xp) :)
  · rcases exBind_ok.1 h with ⟨newXp, _, h⟩
    rcases exBind_ok.1 h with ⟨d1res, _, h⟩
    rcases exBind_ok.1 h with ⟨tokenFee, _, h⟩
    rcases exBind_ok.1 h with ⟨D2, _, h⟩
    split at h
    · cases h; exact ((getD_st_frame hd0 : d0res.2 = xp) :)
    · rcases exBind_ok.1 h with ⟨q, _, h⟩
      cases h; exact ((getD_st_frame hd0 : d0res.2 = xp) :)

theorem calcWithdrawOneCoin_st_frame {tokenAmount i : Int} {xp : List Int}
    {Ann totalSupply fee : Int} {r : (Int × Int) × List Int}
    (h : stableswap.calcWithdrawOneCoin_st tokenAmount i xp Ann totalSupply
      fee = .ok r) : r.2 = xp := by
  simp only [stableswap.calcWithdrawOneCoin_st] at h
  rcases exBind_ok.1 h with ⟨d0res, hd0, h⟩
  rcases exBind_ok.1 h with ⟨t, _, h⟩
  rcases exBind_ok.1 h with ⟨yres, hy, h⟩
  rcases exBind_ok.1 h with ⟨tokenFee, _, h⟩
  rcases exBind_ok.1 h with ⟨xpReduced, _, h⟩
  rcases exBind_ok.1 h with ⟨fres, _, h⟩
  rcases exBind_ok.1 h with ⟨xri, _, h⟩
  rcases exBind_ok.1 h with ⟨xpi, _, h⟩
  cases h
  exact (getYD_st_frame hy).trans (getD_st_frame hd0)

theorem crypto_getDy_st_frame {p : cryptoswap.TwocryptoParams} {i j dx : Int}
    {r : Int × (Int × Int)} (h : cryptoswap.getDy_st p i j dx = .ok r) :
    r.2 = p.balances := by
  simp only [cryptoswap.getDy_st] at h
  split at h
  · cases h; rfl
  · rcases exBind_ok.1 h with ⟨u, _, h⟩
    rcases exBind_ok.1 h with ⟨x1, _, h⟩
    rcases exBind_ok.1 h with ⟨y, _, h⟩
    rcases exBind_ok.1 h with ⟨xpj, _, h⟩
    split at h
    · cases h; rfl
    · split at h <;>
      · rcases exBind_ok.1 h with ⟨dy1, _, h⟩
        rcases exBind_ok.1 h with ⟨fee, _, h⟩
        rcases exBind_ok.1 h with ⟨fa, _, h⟩
        cases h; rfl

theorem crypto_getDy3_st_frame {p : cryptoswap.TricryptoParams} {i j dx : Int}
    {r : Int × (Int × Int × Int)} (h : cryptoswap.getDy3_st p i j dx = .ok r) :
    r.2 = p.balances := by
  simp only [cryptoswap.getDy3_st] at h
  split at h
  · cases h; rfl
  · rcases exBind_ok.1 h with ⟨u, _, h⟩
    rcases exBind_ok.1 h with ⟨xp, _, h⟩
    rcases exBind_ok.1 h with ⟨y, _, h⟩
    rcases exBind_ok.1 h with ⟨xpj, _, h⟩
    split at h
    · cases h; rfl
    · split at h <;> [skip; split at h] <;>
      · rcases exBind_ok.1 h with ⟨dy1, _, h⟩
        rcases exBind_ok.1 h with ⟨fee, _, h⟩
        rcases exBind_ok.1 h with ⟨fa, _, h⟩
        cases h; rfl

/-- C9: no core operation mutates its caller's balance array — every
StableSwap operation and both CryptoSwap forward quotes return the balance
store exactly as supplied (`getDy` applies `dx` to a fresh copy, never to
the argument). -/
theorem core_operations_preserve_balances :
    (∀ (xp : List Int) (Ann : Int) (r : Int × List Int),
      stableswap.getD_st xp Ann = .ok r → r.2 = xp) ∧
    (∀ (i j x : Int) (xp : List Int) (Ann D : Int) (r : Int × List Int),
      stableswap.getY_st i j x xp Ann D = .ok r → r.2 = xp) ∧
    (∀ (i : Int) (xp : List Int) (Ann D : Int) (r : Int × List Int),
      stableswap.getYD_st i xp Ann D = .ok r → r.2 = xp) ∧
    (∀ (i j dx : Int) (xp : List Int) (Ann baseFee feeMultiplier : Int)
      (r : Int × List Int),
      stableswap.getDy_st i j dx xp Ann baseFee feeMultiplier = .ok r →
        r.2 = xp) ∧
    (∀ (i j dy : Int) (xp : List Int) (Ann baseFee feeMultiplier : Int)
      (r : Int × List Int),
      stableswap.getDx_st i j dy xp Ann baseFee feeMultiplier = .ok r →
        r.2 = xp) ∧
    (∀ (amounts : List Int) (isDeposit : Bool) (xp : List Int)
      (Ann totalSupply fee : Int) (r : Int × List Int),
      stableswap.calcTokenAmount_st amounts isDeposit xp Ann totalSupply
        fee = .ok r → r.2 = xp) ∧
    (∀ (tokenAmount i : Int) (xp : List Int) (Ann totalSupply fee : Int)
      (r : (Int × Int) × List Int),
      stableswap.calcWithdrawOneCoin_st tokenAmount i xp Ann totalSupply
        fee = .ok r → r.2 = xp) ∧
    (∀ (p : cryptoswap.TwocryptoParams) (i j dx : Int)
      (r : Int × (Int × Int)),
      cryptoswap.getDy_st p i j dx = .ok r → r.2 = p.balances) ∧
    (∀ (p : cryptoswap.TricryptoParams) (i j dx : Int)
      (r : Int × (Int × Int × Int)),
      cryptoswap.getDy3_st p i j dx = .ok r → r.2 = p.balances) :=
  ⟨fun _ _ _ h => getD_st_frame h,
   fun _ _ _ _ _ _ _ h => getY_st_frame h,
   fun _ _ _ _ _ h => getYD_st_frame h,
   fun _ _ _ _ _ _ _ _ h => getDy_st_frame h,
   fun _ _ _ _ _ _ _ _ h => getDx_st_frame h,
   fun _ _ _ _ _ _ _ h => calcTokenAmount_st_frame h,
   fun _ _ _ _ _ _ _ h => calcWithdrawOneCoin_st_frame h,
   fun _ _ _ _ _ h => crypto_getDy_st_frame h,
   fun _ _ _ _ _ h => crypto_getDy3_st_frame h⟩

/-- Witness for `core_operations_preserve_balances`: the StableSwap forward
quote on a balanced pool returns the balance array unchanged. -/
theorem core_operations_preserve_balances_witness :
    ((9995010249014456442, [1000 * 10 ^ 18, 1000 * 10 ^ 18]) :
      Int × List Int).2 = [1000 * 10 ^ 18, 1000 * 10 ^ 18] :=
  core_operations_preserve_balances.2.2.2.1 0 1 (10 * 10 ^ 18)
    [1000 * 10 ^ 18, 1000 * 10 ^ 18] 20000 4000000 (2 * 10 ^ 10)
    (9995010249014456442, [1000 * 10 ^ 18, 1000 * 10 ^ 18]) (by rfl)

/-! ## C7 — fee monotonicity of the dynamic fees -/

theorem tdiv_le_of_le_mul {a b c : Int} (ha : 0 ≤ a) (hb : 0 < b)
    (h : a ≤ c * b) : a.tdiv b ≤ c := by
  rw [tdiv_eq_ediv_nn ha (le_of_lt hb)]
  calc a / b ≤ c * b / b := Int.ediv_le_ediv hb h
    _ = c := Int.mul_ediv_cancel _ (ne_of_gt hb)

theorem le_tdiv_of_mul_le {a b c : Int} (ha : 0 ≤ a) (hb : 0 < b)
    (h : c * b ≤ a) : c ≤ a.tdiv b := by
  rw [tdiv_eq_ediv_nn ha (le_of_lt hb)]
  exact (Int.le_ediv_iff_mul_le hb).2 h

theorem tdiv_le_tdiv_right {a b c : Int} (ha : 0 ≤ a) (hc : 0 < c)
    (h : a ≤ b) : a.tdiv c ≤ b.tdiv c := by
  rw [tdiv_eq_ediv_nn ha (le_of_lt hc),
    tdiv_eq_ediv_nn (le_trans ha h) (le_of_lt hc)]
  exact Int.ediv_le_ediv hc h

theorem tdiv_le_tdiv_left {a b c : Int} (ha : 0 ≤ a) (hb : 0 < b)
    (hbc : b ≤ c) : a.tdiv c ≤ a.tdiv b := by
  rw [tdiv_eq_ediv_nn ha (le_of_lt hb),
    tdiv_eq_ediv_nn ha (le_of_lt (lt_of_lt_of_le hb hbc))]
  exact ediv_le_ediv_left_nn ha hb hbc

/-- C7: fee monotonicity.  StableSwap: with multiplier above
`FEE_DENOMINATOR`, the dynamic fee on a balanced pair is exactly the base
fee and the fee on any pair of positive balances with the same total is at
least that.  CryptoSwap: with `midFee ≤ outFee`, the dynamic fee on a
balanced pair is exactly the mid fee and the fee on any non-negative pair
with the same total is at least that. -/
theorem dynamicFee_imbalanced_ge_balanced :
    (∀ x y m baseFee feeMultiplier : Int, 0 < x → 0 < y → 0 < m →
      0 ≤ baseFee → stableswap.FEE_DENOMINATOR < feeMultiplier →
      x + y = 2 * m →
      stableswap.dynamicFee m m baseFee feeMultiplier = .ok baseFee ∧
      ∃ a, stableswap.dynamicFee x y baseFee feeMultiplier = .ok a ∧
        baseFee ≤ a) ∧
    (∀ x y m feeGamma midFee outFee : Int, 0 ≤ x → 0 ≤ y → 0 < m →
      0 < feeGamma → 0 ≤ midFee → midFee ≤ outFee → x + y = 2 * m →
      cryptoswap.dynamicFee (m, m) feeGamma midFee outFee = .ok midFee ∧
      ∃ a, cryptoswap.dynamicFee (x, y) feeGamma midFee outFee = .ok a ∧
        midFee ≤ a) := by
  have hFD : (0 : Int) < stableswap.FEE_DENOMINATOR := by decide
  have hP : (0 : Int) < cryptoswap.PRECISION := by decide
  constructor
  · intro x y m baseFee feeMultiplier hx hy hm hbase hmult hsum
    have hnle : ¬feeMultiplier ≤ stableswap.FEE_DENOMINATOR := not_le.2 hmult
    have hmpos : 0 < feeMultiplier := lt_trans hFD hmult
    constructor
    · show (if feeMultiplier ≤ stableswap.FEE_DENOMINATOR then
          (.ok baseFee : Except JsErr Int)
        else do
          let q ← jdiv ((feeMultiplier - stableswap.FEE_DENOMINATOR) * 4 *
            m * m) ((m + m) ^ 2)
          jdiv (feeMultiplier * baseFee) (q + stableswap.FEE_DENOMINATOR)) =
          .ok baseFee
      rw [if_neg hnle]
      have hsq : ((m + m) ^ 2 : Int) ≠ 0 := by positivity
      have hq : ((feeMultiplier - stableswap.FEE_DENOMINATOR) * 4 * m *
          m).tdiv ((m + m) ^ 2) = feeMultiplier - stableswap.FEE_DENOMINATOR := by
        rw [show (feeMultiplier - stableswap.FEE_DENOMINATOR) * 4 * m * m =
          (feeMultiplier - stableswap.FEE_DENOMINATOR) * ((m + m) ^ 2) by ring]
        exact Int.mul_tdiv_cancel _ hsq
      rw [jdiv_ok_of hsq, hq, ok_bind]
      rw [show feeMultiplier - stableswap.FEE_DENOMINATOR +
        stableswap.FEE_DENOMINATOR = feeMultiplier by ring]
      rw [jdiv_ok_of (ne_of_gt hmpos)]
      rw [Int.mul_tdiv_cancel_left _ (ne_of_gt hmpos)]
    · show ∃ a, (if feeMultiplier ≤ stableswap.FEE_DENOMINATOR then
          (.ok baseFee : Except JsErr Int)
        else do
          let q ← jdiv ((feeMultiplier - stableswap.FEE_DENOMINATOR) * 4 *
            x * y) ((x + y) ^ 2)
          jdiv (feeMultiplier * baseFee) (q + stableswap.FEE_DENOMINATOR)) =
          .ok a ∧ baseFee ≤ a
      rw [if_neg hnle]
      have hsq : ((x + y) ^ 2 : Int) ≠ 0 := by positivity
      have hqnn : 0 ≤ ((feeMultiplier - stableswap.FEE_DENOMINATOR) * 4 *
          x * y).tdiv ((x + y) ^ 2) := by
        apply Int.tdiv_nonneg _ (by positivity)
        have h1 : 0 ≤ feeMultiplier - stableswap.FEE_DENOMINATOR := by omega
        positivity
      have hqle : ((feeMultiplier - stableswap.FEE_DENOMINATOR) * 4 * x *
          y).tdiv ((x + y) ^ 2) ≤ feeMultiplier - stableswap.FEE_DENOMINATOR := by
        apply tdiv_le_of_le_mul _ (by positivity)
        · nlinarith [sq_nonneg (x - y)]
        · have h1 : 0 ≤ feeMultiplier - stableswap.FEE_DENOMINATOR := by omega
          positivity
      rw [jdiv_ok_of hsq, ok_bind]
      set q : Int := ((feeMultiplier - stableswap.FEE_DENOMINATOR) * 4 * x *
        y).tdiv ((x + y) ^ 2) with hqdef
      have hden : 0 < q + stableswap.FEE_DENOMINATOR := by omega
      refine ⟨_, jdiv_ok_of (ne_of_gt hden), ?_⟩
      calc baseFee = (feeMultiplier * baseFee).tdiv feeMultiplier :=
            (Int.mul_tdiv_cancel_left _ (ne_of_gt hmpos)).symm
        _ ≤ (feeMultiplier * baseFee).tdiv (q + stableswap.FEE_DENOMINATOR) := by
            apply tdiv_le_tdiv_left (by positivity) hden
            omega
  · intro x y m feeGamma midFee outFee hx hy hm hfg hmid hmo hsum
    have hsumpos : (0 : Int) < m + m := by omega
    have hxy : x + y = m + m := by omega
    constructor
    · show (if m + m = 0 then (.ok midFee : Except JsErr Int)
        else do
          let k1 ← jdiv (cryptoswap.PRECISION * 2 * 2 * m) (m + m)
          let K ← jdiv (k1 * m) (m + m)
          let f ← jdiv (feeGamma * cryptoswap.PRECISION)
            (feeGamma + cryptoswap.PRECISION - K)
          jdiv (midFee * f + outFee * (cryptoswap.PRECISION - f))
            cryptoswap.PRECISION) = .ok midFee
      rw [if_neg (ne_of_gt hsumpos)]
      have hk1 : (cryptoswap.PRECISION * 2 * 2 * m).tdiv (m + m) =
          2 * cryptoswap.PRECISION := by
        rw [show cryptoswap.PRECISION * 2 * 2 * m =
          2 * cryptoswap.PRECISION * (m + m) by ring]
        exact Int.mul_tdiv_cancel _ (ne_of_gt hsumpos)
      rw [jdiv_ok_of (ne_of_gt hsumpos), hk1, ok_bind]
      have hK : (2 * cryptoswap.PRECISION * m).tdiv (m + m) =
          cryptoswap.PRECISION := by
        rw [show 2 * cryptoswap.PRECISION * m =
          cryptoswap.PRECISION * (m + m) by ring]
        exact Int.mul_tdiv_cancel _ (ne_of_gt hsumpos)
      rw [jdiv_ok_of (ne_of_gt hsumpos), hK, ok_bind]
      rw [show feeGamma + cryptoswap.PRECISION - cryptoswap.PRECISION =
        feeGamma by ring]
      rw [jdiv_ok_of (ne_of_gt hfg), Int.mul_tdiv_cancel_left _ (ne_of_gt hfg),
        ok_bind]
      rw [show midFee * cryptoswap.PRECISION + outFee *
        (cryptoswap.PRECISION - cryptoswap.PRECISION) =
        midFee * cryptoswap.PRECISION by ring]
      rw [jdiv_ok_of (ne_of_gt hP), Int.mul_tdiv_cancel _ (ne_of_gt hP)]
    · show ∃ a, (if x + y = 0 then (.ok midFee : Except JsErr Int)
        else do
          let k1 ← jdiv (cryptoswap.PRECISION * 2 * 2 * x) (x + y)
          let K ← jdiv (k1 * y) (x + y)
          let f ← jdiv (feeGamma * cryptoswap.PRECISION)
            (feeGamma + cryptoswap.PRECISION - K)
          jdiv (midFee * f + outFee * (cryptoswap.PRECISION - f))
            cryptoswap.PRECISION) = .ok a ∧ midFee ≤ a
      rw [hxy, if_neg (ne_of_gt hsumpos)]
      rw [jdiv_ok_of (ne_of_gt hsumpos), ok_bind]
      set k1 : Int := (cryptoswap.PRECISION * 2 * 2 * x).tdiv (m + m) with hk1def
      have hk1nn : 0 ≤ k1 := Int.tdiv_nonneg (by positivity)
        (le_of_lt hsumpos)
      have hk1le : k1 * (m + m) ≤ cryptoswap.PRECISION * 2 * 2 * x := by
        rw [hk1def, tdiv_eq_ediv_nn (by positivity) (le_of_lt hsumpos)]
        exact Int.ediv_mul_le _ (ne_of_gt hsumpos)
      rw [jdiv_ok_of (ne_of_gt hsumpos), ok_bind]
      set K : Int := (k1 * y).tdiv (m + m) with hKdef
      have hKnn : 0 ≤ K := Int.tdiv_nonneg (mul_nonneg hk1nn hy)
        (le_of_lt hsumpos)
      have hKle : K ≤ cryptoswap.PRECISION := by
        apply tdiv_le_of_le_mul (mul_nonneg hk1nn hy) hsumpos
        have h4 : 4 * x * y ≤ (m + m) ^ 2 := by nlinarith [sq_nonneg (x - y)]
        have h1 : k1 * (m + m) * y ≤ cryptoswap.PRECISION * 2 * 2 * x * y :=
          mul_le_mul_of_nonneg_right hk1le hy
        have h2 : cryptoswap.PRECISION * 2 * 2 * x * y ≤
            cryptoswap.PRECISION * (m + m) * (m + m) := by nlinarith
        have h3 : k1 * y * (m + m) ≤ cryptoswap.PRECISION * (m + m) *
            (m + m) := by nlinarith
        exact le_of_mul_le_mul_right (by nlinarith) hsumpos
      have hdenpos : 0 < feeGamma + cryptoswap.PRECISION - K := by omega
      rw [jdiv_ok_of (ne_of_gt hdenpos), ok_bind]
      set f : Int := (feeGamma * cryptoswap.PRECISION).tdiv
        (feeGamma + cryptoswap.PRECISION - K) with hfdef
      have hfnn : 0 ≤ f := Int.tdiv_nonneg (by positivity)
        (le_of_lt hdenpos)
      have hfle : f ≤ cryptoswap.PRECISION := by
        apply tdiv_le_of_le_mul (by positivity) hdenpos
        nlinarith
      refine ⟨_, jdiv_ok_of (ne_of_gt hP), ?_⟩
      have hnum : midFee * cryptoswap.PRECISION ≤
          midFee * f + outFee * (cryptoswap.PRECISION - f) := by nlinarith
      calc midFee = (midFee * cryptoswap.PRECISION).tdiv
            cryptoswap.PRECISION :=
            (Int.mul_tdiv_cancel _ (ne_of_gt hP)).symm
        _ ≤ (midFee * f + outFee * (cryptoswap.PRECISION - f)).tdiv
            cryptoswap.PRECISION :=
            tdiv_le_tdiv_right (by positivity) hP hnum

/-- Witness for `dynamicFee_imbalanced_ge_balanced` at a 3:1 imbalanced
pair against the balanced pair with the same total, for both fee models. -/
theorem dynamicFee_imbalanced_ge_balanced_witness :
    (stableswap.dynamicFee (1000 * 10 ^ 18) (1000 * 10 ^ 18) 4000000
        (2 * 10 ^ 10) = .ok 4000000 ∧
      ∃ a, stableswap.dynamicFee (1500 * 10 ^ 18) (500 * 10 ^ 18) 4000000
        (2 * 10 ^ 10) = .ok a ∧ (4000000 : Int) ≤ a) ∧
    (cryptoswap.dynamicFee (1000 * 10 ^ 18, 1000 * 10 ^ 18)
        (230 * 10 ^ 12) 3000000 30000000 = .ok 3000000 ∧
      ∃ a, cryptoswap.dynamicFee (1500 * 10 ^ 18, 500 * 10 ^ 18)
        (230 * 10 ^ 12) 3000000 30000000 = .ok a ∧ (3000000 : Int) ≤ a) :=
  ⟨dynamicFee_imbalanced_ge_balanced.1 (1500 * 10 ^ 18) (500 * 10 ^ 18)
      (1000 * 10 ^ 18) 4000000 (2 * 10 ^ 10) (by decide) (by decide)
      (by decide) (by decide) (by decide) (by decide),
   dynamicFee_imbalanced_ge_balanced.2 (1500 * 10 ^ 18) (500 * 10 ^ 18)
      (1000 * 10 ^ 18) (230 * 10 ^ 12) 3000000 30000000 (by decide)
      (by decide) (by decide) (by decide) (by decide) (by decide)
      (by decide)⟩

/-! ## C1 (amended) — CryptoSwap `getDy` never returns a negative value -/

theorem pget_nonneg {p : Int × Int} {k u : Int} (h1 : 0 ≤ p.1) (h2 : 0 ≤ p.2)
    (h : cryptoswap.pget p k = .ok u) : 0 ≤ u := by
  unfold cryptoswap.pget at h
  split at h
  · cases h; exact h1
  · split at h
    · cases h; exact h2
    · cases h

theorem pset_nonneg (p : Int × Int) (k v : Int) (h1 : 0 ≤ p.1) (h2 : 0 ≤ p.2)
    (hv : 0 ≤ v) :
    0 ≤ (cryptoswap.pset p k v).1 ∧ 0 ≤ (cryptoswap.pset p k v).2 := by
  unfold cryptoswap.pset
  split
  · exact ⟨hv, h2⟩
  · split
    · exact ⟨h1, hv⟩
    · exact ⟨h1, h2⟩

/-- Sign invariant of the `newtonY` Newton loop: every update either halves
a non-negative iterate or takes the guarded difference `y_plus - y_minus`
(only when it is non-negative), so a successful run from a non-negative
start stays non-negative. -/
theorem newtonYLoop_nonneg (A gamma D xj K0_i cl : Int) :
    ∀ (fuel : Nat) (y r : Int), 0 ≤ y →
      cryptoswap.newtonYLoop A gamma D xj K0_i cl fuel y = .ok r →
      0 ≤ r := by
  intro fuel
  induction fuel with
  | zero =>
    intro y r hy h
    cases h
    exact hy
  | succ m ih =>
    intro y r hy h
    simp only [cryptoswap.newtonYLoop] at h
    rcases exBind_ok.1 h with ⟨K0, _, h⟩
    rcases exBind_ok.1 h with ⟨m1, _, h⟩
    rcases exBind_ok.1 h with ⟨m2, _, h⟩
    rcases exBind_ok.1 h with ⟨mul1, _, h⟩
    rcases exBind_ok.1 h with ⟨m3, _, h⟩
    split at h
    · rcases exBind_ok.1 h with ⟨yh, hyh, h⟩
      exact ih yh r (jdiv_nonneg hy (by norm_num) hyh) h
    · rcases exBind_ok.1 h with ⟨fprime, _, h⟩
      rcases exBind_ok.1 h with ⟨yMinusBase, _, h⟩
      rcases exBind_ok.1 h with ⟨yp1, _, h⟩
      rcases exBind_ok.1 h with ⟨yp2, _, h⟩
      rcases exBind_ok.1 h with ⟨ym, _, h⟩
      split at h
      · rcases exBind_ok.1 h with ⟨yn, hyn, h⟩
        have hynn : 0 ≤ yn := jdiv_nonneg hy (by norm_num) hyn
        rcases exBind_ok.1 h with ⟨threshold, _, h⟩
        split at h <;> split at h <;> split at h <;>
          first
            | (cases h; exact hynn)
            | exact ih yn r hynn h
      · rename_i hge
        rcases exBind_ok.1 h with ⟨yn, hyn, h⟩
        have hynn : 0 ≤ yn := by
          cases hyn
          omega
        rcases exBind_ok.1 h with ⟨threshold, _, h⟩
        split at h <;> split at h <;> split at h <;>
          first
            | (cases h; exact hynn)
            | exact ih yn r hynn h

theorem newtonY_nonneg {A gamma : Int} {x : Int × Int} {D : Int} {i : Int}
    {r : Int} (hx1 : 0 ≤ x.1) (hx2 : 0 ≤ x.2)
    (h : cryptoswap.newtonY A gamma x D i = .ok r) : 0 ≤ r := by
  simp only [cryptoswap.newtonY] at h
  rcases exBind_ok.1 h with ⟨xj, hxj, h⟩
  have hxjnn : 0 ≤ xj := pget_nonneg hx1 hx2 hxj
  rcases exBind_ok.1 h with ⟨y0, hy0, h⟩
  have hy0nn : 0 ≤ y0 :=
    jdiv_nonneg (mul_self_nonneg D)
      (mul_nonneg (mul_nonneg hxjnn (by norm_num)) (by norm_num)) hy0
  rcases exBind_ok.1 h with ⟨K0_i, _, h⟩
  rcases exBind_ok.1 h with ⟨ca, _, h⟩
  rcases exBind_ok.1 h with ⟨cb, _, h⟩
  exact newtonYLoop_nonneg A gamma D xj K0_i _ cryptoswap.MAX_ITERATIONS
    y0 r hy0nn h

/-- Bounds of the CryptoSwap dynamic fee: on a non-negative pair, with a
positive `feeGamma` and both fees in `[0, FEE_DENOMINATOR]`, the computed
fee lies in `[0, FEE_DENOMINATOR]` as well. -/
theorem crypto_dynamicFee_bounds {xp : Int × Int} {fg mid out fee : Int}
    (hx1 : 0 ≤ xp.1) (hx2 : 0 ≤ xp.2) (hfg : 0 < fg) (hmid : 0 ≤ mid)
    (hmidle : mid ≤ cryptoswap.FEE_DENOMINATOR) (hout : 0 ≤ out)
    (houtle : out ≤ cryptoswap.FEE_DENOMINATOR)
    (h : cryptoswap.dynamicFee xp fg mid out = .ok fee) :
    0 ≤ fee ∧ fee ≤ cryptoswap.FEE_DENOMINATOR := by
  have hP : (0 : Int) < cryptoswap.PRECISION := by decide
  simp only [cryptoswap.dynamicFee] at h
  split at h
  · cases h; exact ⟨hmid, hmidle⟩
  · rename_i hs
    have hsum : 0 < xp.1 + xp.2 :=
      lt_of_le_of_ne (by positivity) (Ne.symm hs)
    rcases exBind_ok.1 h with ⟨k1, hk1, h⟩
    rcases exBind_ok.1 h with ⟨K, hK, h⟩
    have hk1nn : 0 ≤ k1 :=
      jdiv_nonneg (mul_nonneg (by decide) hx1) (le_of_lt hsum) hk1
    have hKnn : 0 ≤ K := jdiv_nonneg (mul_nonneg hk1nn hx2)
      (le_of_lt hsum) hK
    have hk1le : k1 * (xp.1 + xp.2) ≤ cryptoswap.PRECISION * 2 * 2 * xp.1 := by
      rcases jdiv_ok.1 hk1 with ⟨_, hk1e⟩
      rw [← hk1e, tdiv_eq_ediv_nn (mul_nonneg (by decide) hx1)
        (le_of_lt hsum)]
      exact Int.ediv_mul_le _ (ne_of_gt hsum)
    have hKle : K ≤ cryptoswap.PRECISION := by
      rcases jdiv_ok.1 hK with ⟨_, hKe⟩
      rw [← hKe]
      apply tdiv_le_of_le_mul (mul_nonneg hk1nn hx2) hsum
      have h4 : 4 * xp.1 * xp.2 ≤ (xp.1 + xp.2) ^ 2 := by
        nlinarith [sq_nonneg (xp.1 - xp.2)]
      have h1 : k1 * (xp.1 + xp.2) * xp.2 ≤
          cryptoswap.PRECISION * 2 * 2 * xp.1 * xp.2 :=
        mul_le_mul_of_nonneg_right hk1le hx2
      have h2 : cryptoswap.PRECISION * 2 * 2 * xp.1 * xp.2 ≤
          cryptoswap.PRECISION * (xp.1 + xp.2) * (xp.1 + xp.2) := by nlinarith
      exact le_of_mul_le_mul_right (by nlinarith) hsum
    have hdenpos : 0 < fg + cryptoswap.PRECISION - K := by omega
    rcases exBind_ok.1 h with ⟨f, hf, h⟩
    have hfnn : 0 ≤ f := jdiv_nonneg (by positivity) (le_of_lt hdenpos) hf
    have hfle : f ≤ cryptoswap.PRECISION := by
      rcases jdiv_ok.1 hf with ⟨_, hfe⟩
      rw [← hfe]
      apply tdiv_le_of_le_mul (by positivity) hdenpos
      nlinarith
    rcases jdiv_ok.1 h with ⟨_, hfee⟩
    have hnumnn : 0 ≤ mid * f + out * (cryptoswap.PRECISION - f) := by
      have := mul_nonneg hmid hfnn
      have := mul_nonneg hout (by omega : (0 : Int) ≤ cryptoswap.PRECISION - f)
      omega
    constructor
    · rw [← hfee]; exact Int.tdiv_nonneg hnumnn (le_of_lt hP)
    · rw [← hfee]
      apply tdiv_le_of_le_mul hnumnn hP
      nlinarith

/-- C1 (amended): the CryptoSwap forward quote never returns a negative
value: for non-negative balances, input, price scale and precisions, a
positive `feeGamma` and both fee parameters in `[0, FEE_DENOMINATOR]`,
any successful `getDy` returns a non-negative amount.  (StableSwap `getDy`
applies no floor and can return `-1`: see the counterexample.) -/
theorem getDy_cryptoswap_nonneg (p : cryptoswap.TwocryptoParams)
    (i j dx v : Int) (st : Int × Int)
    (hb1 : 0 ≤ p.balances.1) (hb2 : 0 ≤ p.balances.2) (hdx : 0 ≤ dx)
    (hps : 0 ≤ p.priceScale)
    (hpr1 : 0 ≤ (p.precisions.getD (1, 1)).1)
    (hpr2 : 0 ≤ (p.precisions.getD (1, 1)).2)
    (hfg : 0 < p.feeGamma)
    (hmid : 0 ≤ p.midFee) (hmidle : p.midFee ≤ cryptoswap.FEE_DENOMINATOR)
    (hout : 0 ≤ p.outFee) (houtle : p.outFee ≤ cryptoswap.FEE_DENOMINATOR)
    (h : cryptoswap.getDy_st p i j dx = .ok (v, st)) : 0 ≤ v := by
  have hFD : (0 : Int) < cryptoswap.FEE_DENOMINATOR := by decide
  simp only [cryptoswap.getDy_st] at h
  split at h
  · cases h; exact le_refl 0
  · rcases exBind_ok.1 h with ⟨u, hu, h⟩
    have hunn : 0 ≤ u := pget_nonneg hb1 hb2 hu
    have hpsi : 0 ≤ p.priceScale * (p.precisions.getD (1, 1)).2 :=
      mul_nonneg hps hpr2
    have hxU := pset_nonneg p.balances i (u + dx) hb1 hb2
      (by omega : 0 ≤ u + dx)
    rcases exBind_ok.1 h with ⟨x1, hx1, h⟩
    have hx1nn : 0 ≤ x1 := jdiv_nonneg (mul_nonneg hxU.2 hpsi)
      (by decide) hx1
    rcases exBind_ok.1 h with ⟨y, hy, h⟩
    have hynn : 0 ≤ y := newtonY_nonneg
      (mul_nonneg hxU.1 hpr1) hx1nn hy
    rcases exBind_ok.1 h with ⟨xpj, hxpj, h⟩
    split at h
    · cases h; exact le_refl 0
    · rename_i hdy0
      have hdy0nn : 0 ≤ xpj - y - 1 := not_lt.1 hdy0
      have hafter := pset_nonneg
        ((cryptoswap.pset p.balances i (u + dx)).1 *
          (p.precisions.getD (1, 1)).1, x1) j y
        (mul_nonneg hxU.1 hpr1) hx1nn hynn
      split at h
      · rcases exBind_ok.1 h with ⟨dy1, hdy1, h⟩
        have hdy1nn : 0 ≤ dy1 :=
          jdiv_nonneg (mul_nonneg hdy0nn (by decide)) hpsi hdy1
        rcases exBind_ok.1 h with ⟨fee, hfee, h⟩
        have hfb := crypto_dynamicFee_bounds hafter.1 hafter.2 hfg hmid
          hmidle hout houtle hfee
        rcases exBind_ok.1 h with ⟨fa, hfa, h⟩
        have hfale : fa ≤ dy1 := by
          rcases jdiv_ok.1 hfa with ⟨_, hfae⟩
          rw [← hfae]
          apply tdiv_le_of_le_mul (mul_nonneg hdy1nn hfb.1) hFD
          exact mul_le_mul_of_nonneg_left hfb.2 hdy1nn
        cases h
        omega
      · rcases exBind_ok.1 h with ⟨dy1, hdy1, h⟩
        have hdy1nn : 0 ≤ dy1 := jdiv_nonneg hdy0nn hpr1 hdy1
        rcases exBind_ok.1 h with ⟨fee, hfee, h⟩
        have hfb := crypto_dynamicFee_bounds hafter.1 hafter.2 hfg hmid
          hmidle hout houtle hfee
        rcases exBind_ok.1 h with ⟨fa, hfa, h⟩
        have hfale : fa ≤ dy1 := by
          rcases jdiv_ok.1 hfa with ⟨_, hfae⟩
          rw [← hfae]
          apply tdiv_le_of_le_mul (mul_nonneg hdy1nn hfb.1) hFD
          exact mul_le_mul_of_nonneg_left hfb.2 hdy1nn
        cases h
        omega

/-- Witness for `getDy_cryptoswap_nonneg` on a balanced Twocrypto pool. -/
theorem getDy_cryptoswap_nonneg_witness :
    cryptoswap.getDy_st
        ⟨400000, 145 * 10 ^ 12, 2000 * 10 ^ 18, 3000000, 30000000,
         230 * 10 ^ 12, 10 ^ 18, (1000 * 10 ^ 18, 1000 * 10 ^ 18),
         some (1, 1)⟩ 0 1 (10 * 10 ^ 18) =
      .ok (9977378424543655516, (1000 * 10 ^ 18, 1000 * 10 ^ 18)) ∧
    (0 : Int) ≤ 9977378424543655516 :=
  ⟨by rfl,
   getDy_cryptoswap_nonneg
     ⟨400000, 145 * 10 ^ 12, 2000 * 10 ^ 18, 3000000, 30000000,
      230 * 10 ^ 12, 10 ^ 18, (1000 * 10 ^ 18, 1000 * 10 ^ 18),
      some (1, 1)⟩ 0 1 (10 * 10 ^ 18) 9977378424543655516
     (1000 * 10 ^ 18, 1000 * 10 ^ 18) (by decide) (by decide) (by decide)
     (by decide) (by decide) (by decide) (by decide) (by decide) (by decide)
     (by decide) (by decide) (by rfl)⟩

/-! ## C4 — the reverse-quote search is a conservative over-estimate
only when the target was ever bracketed -/

/-- Loop invariant of the 2-coin `getDx` search: the upper end of the
bracket is either the untouched initial bound or a point whose forward
quote reaches `dy`; every exit returns such a point. -/
theorem getDxLoop_invariant (params : cryptoswap.TwocryptoParams)
    (i j dy tol H0 : Int) :
    ∀ (fuel : Nat) (low high r : Int),
      (high = H0 ∨ ∃ d st, cryptoswap.getDy_st params i j high =
        .ok (d, st) ∧ dy ≤ d) →
      cryptoswap.getDxLoop params i j dy tol fuel low high = .ok r →
      r = H0 ∨ ∃ d st, cryptoswap.getDy_st params i j r =
        .ok (d, st) ∧ dy ≤ d := by
  intro fuel
  induction fuel with
  | zero =>
    intro low high r hinv h
    cases h
    exact hinv
  | succ m ih =>
    intro low high r hinv h
    simp only [cryptoswap.getDxLoop] at h
    rcases exBind_ok.1 h with ⟨mid, _, h⟩
    rcases exBind_ok.1 h with ⟨dres, hdres, h⟩
    split at h
    · rename_i hge
      have hmidok : ∃ d st, cryptoswap.getDy_st params i j mid =
          .ok (d, st) ∧ dy ≤ d :=
        ⟨dres.1, dres.2, by rw [Prod.mk.eta]; exact hdres, hge⟩
      split at h
      · split at h
        · cases h; exact Or.inr hmidok
        · exact ih low mid r (Or.inr hmidok) h
      · split at h
        · cases h; exact Or.inr hmidok
        · exact ih low mid r (Or.inr hmidok) h
    · split at h
      · cases h; exact hinv
      · exact ih mid high r hinv h

/-- Loop invariant of the 3-coin `getDx3` search (same shape). -/
theorem getDx3Loop_invariant (params : cryptoswap.TricryptoParams)
    (i j dy tol H0 : Int) :
    ∀ (fuel : Nat) (low high r : Int),
      (high = H0 ∨ ∃ d st, cryptoswap.getDy3_st params i j high =
        .ok (d, st) ∧ dy ≤ d) →
      cryptoswap.getDx3Loop params i j dy tol fuel low high = .ok r →
      r = H0 ∨ ∃ d st, cryptoswap.getDy3_st params i j r =
        .ok (d, st) ∧ dy ≤ d := by
  intro fuel
  induction fuel with
  | zero =>
    intro low high r hinv h
    cases h
    exact hinv
  | succ m ih =>
    intro low high r hinv h
    simp only [cryptoswap.getDx3Loop] at h
    rcases exBind_ok.1 h with ⟨mid, _, h⟩
    rcases exBind_ok.1 h with ⟨dres, hdres, h⟩
    split at h
    · rename_i hge
      have hmidok : ∃ d st, cryptoswap.getDy3_st params i j mid =
          .ok (d, st) ∧ dy ≤ d :=
        ⟨dres.1, dres.2, by rw [Prod.mk.eta]; exact hdres, hge⟩
      split at h
      · split at h
        · cases h; exact Or.inr hmidok
        · exact ih low mid r (Or.inr hmidok) h
      · split at h
        · cases h; exact Or.inr hmidok
        · exact ih low mid r (Or.inr hmidok) h
    · split at h
      · cases h; exact hinv
      · exact ih mid high r hinv h

/-- C4 (amended): for `0 < dy < balances[j]`, a successful `getDx` returns
either the untouched initial search bound `10 * balances[i]` (the target
was never met by any probed quote) or an input whose forward quote yields
at least the requested `dy`; likewise for the 3-coin variant.  The
unconditional claim fails when the bracket never moves: see the
counterexample. -/
theorem getDx_cryptoswap_bracket_overestimate :
    (∀ (params : cryptoswap.TwocryptoParams) (i j dy bj r : Int),
      cryptoswap.pgetU params.balances j = some bj → 0 < dy → dy < bj →
      cryptoswap.getDx params i j dy = .ok r →
      (∃ b, cryptoswap.pget params.balances i = .ok b ∧ r = b * 10) ∨
      (∃ d st, cryptoswap.getDy_st params i j r = .ok (d, st) ∧ dy ≤ d)) ∧
    (∀ (params : cryptoswap.TricryptoParams) (i j dy bj r : Int),
      cryptoswap.tgetU params.balances j = some bj → 0 < dy → dy < bj →
      cryptoswap.getDx3 params i j dy = .ok r →
      (∃ b, cryptoswap.tget params.balances i = .ok b ∧ r = b * 10) ∨
      (∃ d st, cryptoswap.getDy3_st params i j r = .ok (d, st) ∧ dy ≤ d)) := by
  constructor
  · intro params i j dy bj r hb hdy hlt h
    simp only [cryptoswap.getDx] at h
    split at h
    · rename_i h0; omega
    · split at h
      · rename_i hg
        rw [hb] at hg
        simp only [geU, decide_eq_true_eq] at hg
        omega
      · rcases exBind_ok.1 h with ⟨bi, hbi, h⟩
        rcases exBind_ok.1 h with ⟨tol, _, h⟩
        rcases getDxLoop_invariant params i j dy tol (bi * 10)
          cryptoswap.MAX_ITERATIONS 0 (bi * 10) r (Or.inl rfl) h with hl | hr
        · exact Or.inl ⟨bi, hbi, hl⟩
        · exact Or.inr hr
  · intro params i j dy bj r hb hdy hlt h
    simp only [cryptoswap.getDx3] at h
    split at h
    · rename_i h0; omega
    · split at h
      · rename_i hg
        rw [hb] at hg
        simp only [geU, decide_eq_true_eq] at hg
        omega
      · rcases exBind_ok.1 h with ⟨bi, hbi, h⟩
        rcases exBind_ok.1 h with ⟨tol, _, h⟩
        rcases getDx3Loop_invariant params i j dy tol (bi * 10)
          cryptoswap.MAX_ITERATIONS 0 (bi * 10) r (Or.inl rfl) h with hl | hr
        · exact Or.inl ⟨bi, hbi, hl⟩
        · exact Or.inr hr

/-- C4 counterexample: with a zero balance of the input coin the search
bracket `[0, 10 * 0]` never moves, `getDx` returns 0, and the forward
quote of the returned input is 0 — strictly below the requested
`dy = 50 < balances[j] = 100`. -/
theorem getDx_cryptoswap_underestimates :
    cryptoswap.getDx czTwo 0 1 50 = .ok 0 ∧
    cryptoswap.getDy_st czTwo 0 1 0 = .ok (0, (0, 100)) ∧
    ((0 : Int) < 50 ∧ (50 : Int) < 100) ∧ ¬(50 : Int) ≤ 0 := by
  exact ⟨by rfl, by rfl, by decide, by decide⟩

/-- Witness for `getDx_cryptoswap_bracket_overestimate` on the degenerate
pools (the left disjunct holds: the initial bound is returned). -/
theorem getDx_cryptoswap_bracket_overestimate_witness :
    ((∃ b, cryptoswap.pget czTwo.balances 0 = .ok b ∧ (0 : Int) = b * 10) ∨
      (∃ d st, cryptoswap.getDy_st czTwo 0 1 0 = .ok (d, st) ∧
        (50 : Int) ≤ d)) ∧
    ((∃ b, cryptoswap.tget czThree.balances 0 = .ok b ∧ (0 : Int) = b * 10) ∨
      (∃ d st, cryptoswap.getDy3_st czThree 0 2 0 = .ok (d, st) ∧
        (60 : Int) ≤ d)) :=
  ⟨getDx_cryptoswap_bracket_overestimate.1 czTwo 0 1 50 100 0 (by rfl)
      (by decide) (by decide) (by rfl),
   getDx_cryptoswap_bracket_overestimate.2 czThree 0 2 60 100 0 (by rfl)
      (by decide) (by decide) (by rfl)⟩

end CurveAmm
